import Mathlib

/-!
Verification of the FuzzQLite differential-testing core
(`src/archive/sqlite_runner.py`, class `SQLiteRunner`).

Text is embedded as `List Char` (wrapped into `String` at the top level).
Python's `str.strip` is `pyStrip` (the common ASCII whitespace set;
exotic Unicode whitespace is not modelled), `str.split(c)` on a
one-character separator is `splitOnC`, and `c.flatten` is `intercalateC`.

Python's builtin `float(part)` is modelled by `parsePyFloat`, which accepts
exactly the finite decimal grammar of CPython floats:
`[sign] (digits [. digits] | . digits) [(e|E) [sign] digits]`, where a digit
group may contain single underscores between digits.  The parsed value is
kept exactly, as a sign plus the decimal data `(num, scale, exp)` denoting
the magnitude `num * 10 ^ (exp - scale)`; the literals `inf`/`nan` are
treated as non-parsing (the runner leaves such fields verbatim either way,
since they never contain a '.').  `f-string` rendering with format `.10f` is
modelled by `renderFix10`: round the exact magnitude half-to-even at ten
fractional digits and print sign, integer digits, '.', and exactly ten
fractional digits.

CPython's `float()` collapses any magnitude at or above the strtod overflow
midpoint `2 ^ 1024 - 2 ^ 970` to infinity, which `.10f` then prints as
`inf`/`-inf` with no fractional digits.  The model applies that collapse at
the single point where the parsed value is consumed numerically, in
`renderFix10` (see `overflow10`): a '.'-containing field whose magnitude
overflows renders as `inf`/`-inf` exactly as the program does, while every
other use of a parse result (keeping a '.'-free field verbatim) is
value-independent, so the composite `normalizeField` agrees with the
program's field treatment.  The collapse is tested on the ten-digit rounded
magnitude, so it kicks in half a unit (5e-11) below strtod's midpoint —
material only for decimals inside that sliver, whose finite renderings the
exact-decimal model could not reproduce digit-for-digit anyway (they round
to DBL_MAX in binary64).  Sub-normal underflow needs no modelling: every
underflowing field prints as (-)0.0000000000 in the model and the program
alike.
-/

namespace FuzzQLite

set_option maxRecDepth 8192

/-- The common whitespace characters removed by Python `str.strip()`. -/
def isPySpace (c : Char) : Bool :=
  c = ' ' || c = '\t' || c = '\n' || c = '\x0b' || c = '\x0c' || c = '\r'

/-- Python `str.strip()`: drop whitespace from both ends. -/
def pyStrip (l : List Char) : List Char :=
  ((l.dropWhile isPySpace).reverse.dropWhile isPySpace).reverse

/-- Python `str.split(sep)` for a one-character separator `sep`. -/
def splitOnC (sep : Char) : List Char → List (List Char)
  | [] => [[]]
  | c :: rest =>
    if c = sep then [] :: splitOnC sep rest
    else
      match splitOnC sep rest with
      | [] => [[c]]
      | p :: ps => (c :: p) :: ps

/-- Python `sep.flatten(pieces)` for a one-character separator. -/
def intercalateC (sep : Char) : List (List Char) → List Char
  | [] => []
  | [p] => p
  | p :: ps => p ++ sep :: intercalateC sep ps

/-- ASCII decimal digit test (`'0'` to `'9'`). -/
def isDigitC (c : Char) : Bool :=
  48 ≤ c.toNat && c.toNat ≤ 57

/-- Numeric value of an ASCII digit character. -/
def digitVal (c : Char) : ℕ :=
  c.toNat - 48

/-- Accumulate a run of decimal digits, allowing a single `'_'` between two
digits as CPython's float grammar does.  Returns the accumulated value, the
number of digits consumed, and the remaining input. -/
def lexDigits : List Char → ℕ → ℕ → ℕ × ℕ × List Char
  | [], acc, n => (acc, n, [])
  | c :: rest, acc, n =>
    if isDigitC c then lexDigits rest (acc * 10 + digitVal c) (n + 1)
    else if c = '_' ∧ n ≠ 0 then
      match rest with
      | [] => (acc, n, [c])
      | d :: rest2 =>
        if isDigitC d then lexDigits rest2 (acc * 10 + digitVal d) (n + 1)
        else (acc, n, c :: d :: rest2)
    else (acc, n, c :: rest)

/-- Specification helper: the value of a digit string read most significant
first, accumulated onto `acc` (the loop invariant of `lexDigits`). -/
def digsVal (ds : List Char) (acc : ℕ) : ℕ :=
  ds.foldl (fun a c => a * 10 + digitVal c) acc

/-- Optional leading sign; returns whether the value is negative. -/
def parseSignC (l : List Char) : Bool × List Char :=
  match l with
  | [] => (false, l)
  | c :: r => if c = '-' then (true, r) else if c = '+' then (false, r) else (false, l)

/-- Optional exponent suffix `(e|E) [sign] digits`; `none` on a malformed or
non-empty leftover input, `some 0` on empty input. -/
def parseExpPart (l : List Char) : Option ℤ :=
  match l with
  | [] => some 0
  | c :: rest =>
    if c = 'e' ∨ c = 'E' then
      let s := parseSignC rest
      let d := lexDigits s.2 0 0
      if d.2.1 ≠ 0 ∧ d.2.2 = [] then
        some (if s.1 then -(d.1 : ℤ) else (d.1 : ℤ))
      else none
    else none

/-- Python `float(s)` on an already-stripped string, restricted to the
decimal grammar (see the module comment).  Returns the sign and the exact
decimal magnitude data `(num, scale, exp)` meaning `num * 10 ^ (exp - scale)`;
the overflow collapse that `float()` applies to magnitudes beyond the double
range is modelled where this value is consumed, in `renderFix10`. -/
def parsePyFloat (s : List Char) : Option (Bool × ℕ × ℕ × ℤ) :=
  let sg := parseSignC s
  let ipart := lexDigits sg.2 0 0
  match ipart.2.2 with
  | '.' :: r3 =>
    let fpart := lexDigits r3 0 0
    if ipart.2.1 = 0 ∧ fpart.2.1 = 0 then none
    else
      (parseExpPart fpart.2.2).map fun e =>
        (sg.1, ipart.1 * 10 ^ fpart.2.1 + fpart.1, fpart.2.1, e)
  | r2 =>
    if ipart.2.1 = 0 then none
    else (parseExpPart r2).map fun e => (sg.1, ipart.1, 0, e)

/-- The magnitude `num * 10 ^ (exp - scale)` scaled by `10 ^ 10` and rounded
half-to-even to an integer: the integer whose decimal digits `%.10f` prints. -/
def scaled10 (num scale : ℕ) (exp : ℤ) : ℕ :=
  let k : ℤ := 10 + exp - scale
  if 0 ≤ k then num * 10 ^ k.toNat
  else
    let d := 10 ^ (-k).toNat
    let q := num / d
    let r := num % d
    if 2 * r < d then q else if d < 2 * r then q + 1 else if q % 2 = 0 then q else q + 1

/-- One decimal digit as a character. -/
def digitChar (n : ℕ) : Char :=
  match n with
  | 0 => '0' | 1 => '1' | 2 => '2' | 3 => '3' | 4 => '4'
  | 5 => '5' | 6 => '6' | 7 => '7' | 8 => '8' | _ => '9'

/-- Decimal digits of `n`, most significant first, prepended to `acc`.
The fuel argument only needs to exceed the digit count; it is instantiated
with `n + 1` in `natDigits`. -/
def natDigitsAux : ℕ → ℕ → List Char → List Char
  | 0, _, acc => acc
  | fuel + 1, n, acc =>
    if n < 10 then digitChar (n % 10) :: acc
    else natDigitsAux fuel (n / 10) (digitChar (n % 10) :: acc)

/-- Decimal digits of `n`, most significant first (`"0"` for zero). -/
def natDigits (n : ℕ) : List Char :=
  natDigitsAux (n + 1) n []

/-- The `m` decimal digits of `n < 10 ^ m`, most significant first, with
leading zeros. -/
def fixedDigits (m : ℕ) (n : ℕ) : List Char :=
  (List.range m).map fun k => digitChar (n / 10 ^ (m - 1 - k) % 10)

/-- CPython's float-overflow threshold, scaled by `10 ^ 10` to compare with
`scaled10`: `float()` returns infinity exactly when the decimal magnitude is
at least `2 ^ 1024 - 2 ^ 970` (the rounding midpoint above `DBL_MAX`), and
`.10f` prints that infinity as `inf`.  The model tests the ten-digit rounded
magnitude against this bound (see the module comment). -/
def overflow10 : ℕ :=
  (2 ^ 1024 - 2 ^ 970) * 10 ^ 10

/-- Python `f-string` rendering with format `.10f` of the signed exact decimal
`(neg, num, scale, exp)`: for a magnitude overflowing the double range the
program's `float()` produced an infinity and `.10f` prints `inf`/`-inf`;
otherwise sign, integer digits, `'.'`, then exactly ten fractional digits of
the half-to-even rounded magnitude. -/
def renderFix10 (neg : Bool) (num scale : ℕ) (exp : ℤ) : List Char :=
  let n10 := scaled10 num scale exp
  (if neg then ['-'] else []) ++
    (if overflow10 ≤ n10 then ['i', 'n', 'f']
     else natDigits (n10 / 10 ^ 10) ++ '.' :: fixedDigits 10 (n10 % 10 ^ 10))

/-- One field of one output line, as treated by the loop body of
`SQLiteRunner._normalize_output` (lines 174-186): strip the field, try to
parse it as a float, and re-render at ten fractional digits only when it
parsed and contains a `'.'`; otherwise keep the stripped field. -/
def normalizeField (p : List Char) : List Char :=
  let part := pyStrip p
  match parsePyFloat part with
  | some (neg, num, scale, e) =>
    if part.contains '.' then renderFix10 neg num scale e else part
  | none => part

/-- One line of output: split on `'|'`, normalize each field, re-join with
`'|'` (`SQLiteRunner._normalize_output`, lines 171-188). -/
def normalizeLine (line : List Char) : List Char :=
  intercalateC '|' ((splitOnC '|' line).map normalizeField)

/-- `SQLiteRunner._normalize_output` (lines 152-190) on the character list:
strip the whole output, split into lines, drop blank lines, normalize each
remaining line, and re-join with newlines. -/
def normalizeChars (output : List Char) : List Char :=
  intercalateC '\n'
    (((splitOnC '\n' (pyStrip output)).filter
        (fun line => !(pyStrip line).isEmpty)).map normalizeLine)

/-- `SQLiteRunner._normalize_output` as a function on `String`. -/
def normalize_output (output : String) : String :=
  ⟨normalizeChars output.data⟩

/-- Modelled from the spec: the closed outcome type of `runner.outcome.Outcome`
(not under `src/`); its five values are fixed by the spec's data model and by
their five literal uses in `src/archive/sqlite_runner.py` (lines 50-56,
236-253, 374). -/
inductive Outcome
  | PASS
  | CRASH
  | LOGIC_BUG
  | REFERENCE_ERROR
  | INVALID_QUERY
deriving DecidableEq, Repr

/-- The execution-result record consumed by the classification code in
`SQLiteRunner.run`: on that path `returncode`, `stdout` and `stderr` are all
set (the spec's `ExecutionResult`). -/
structure ExecutionResult where
  returncode : Int
  stdout : String
  stderr : String
deriving DecidableEq, Repr

/-- The outcome classification of `SQLiteRunner.run` (lines 233-253): crashed
means a non-zero return code; both-succeeded compares the two normalized
stdout texts. -/
def classifyOutcome (reference_result target_result : ExecutionResult) : Outcome :=
  let target_crashed := target_result.returncode ≠ 0
  let reference_crashed := reference_result.returncode ≠ 0
  if target_crashed ∧ ¬reference_crashed then Outcome.CRASH
  else if ¬target_crashed ∧ reference_crashed then Outcome.REFERENCE_ERROR
  else if ¬target_crashed ∧ ¬reference_crashed then
    if normalize_output target_result.stdout ≠ normalize_output reference_result.stdout
    then Outcome.LOGIC_BUG
    else Outcome.PASS
  else Outcome.INVALID_QUERY

/-- What `subprocess.run` does inside the try block of
`SQLiteRunner._run_sqlite`: it either completes with a return code and both
captured streams, raises `TimeoutExpired` carrying whatever output was
captured before termination (possibly nothing), or raises on launch
(missing binary, permission error, invalid data path) with a message. -/
inductive SubprocEvent
  | completed (returncode : Int) (stdout stderr : String)
  | timeoutExpired (stdout stderr : Option String)
  | launchFailure (message : String)
deriving DecidableEq, Repr

/-- The result dictionary built by `SQLiteRunner._run_sqlite` (lines 114-150):
all three entries start as `None`; every path through the try/except blocks
sets `returncode`, timeouts keep the captured streams, and any other
exception puts its description in `stderr`.  The cleanup in `finally`
swallows its own errors, so the function returns this dictionary on every
event. -/
structure RawResult where
  returncode : Option Int
  stdout : Option String
  stderr : Option String
deriving DecidableEq, Repr

/-- `SQLiteRunner._run_sqlite` (lines 97-150) as a total function of the
subprocess event: the try/except/except structure converts both exception
classes into an in-band result with the reserved status `-1`. -/
def run_sqlite (ev : SubprocEvent) : RawResult :=
  match ev with
  | SubprocEvent.completed rc out err => ⟨some rc, some out, some err⟩
  | SubprocEvent.timeoutExpired out err => ⟨some (-1), out, err⟩
  | SubprocEvent.launchFailure msg => ⟨some (-1), none, some msg⟩

/-- Python `os.path.basename`: everything after the last `'/'`. -/
def baseNameOf (p : String) : String :=
  ⟨((splitOnC '/' p.data).reverse).headD p.data⟩

/-- `SQLiteRunner._save_database_state` (lines 74-95) over an explicit
file-system model `fs` (path to contents).  `random_id` stands for
`uuid.uuid4().hex[:8]` and `temp_dir` for the scratch directory; `copyOk`
models whether `shutil.copy2` succeeds.  A falsy (`none` or empty) path, the
`":memory:"` sentinel, and a missing file short-circuit to `none` with no
copy; otherwise the file is copied to `temp_dir/{random_id}_{basename}`.
There is no handler around `shutil.copy2`, so a copy failure escapes as an
error instead of being turned into `none`. -/
def save_database_state (fs : String → Option String) (copyOk : Bool)
    (temp_dir random_id : String) (db_path : Option String) :
    Except String (Option String × (String → Option String)) :=
  match db_path with
  | none => Except.ok (none, fs)
  | some p =>
    if p ≠ "" ∧ p ≠ ":memory:" ∧ (fs p).isSome then
      let saved_db_path := temp_dir ++ "/" ++ random_id ++ "_" ++ baseNameOf p
      if copyOk then
        Except.ok (some saved_db_path, fun q => if q = saved_db_path then fs p else fs q)
      else Except.error "copy failed"
    else Except.ok (none, fs)

/-- Version label derivation in `SQLiteRunner.run` (lines 217, 224):
`path.split('-')[-1] if '-' in path else "unknown"`. -/
def versionOf (p : String) : String :=
  if p.data.contains '-' then ⟨((splitOnC '-' p.data).reverse).headD p.data⟩ else "unknown"

/-- Modelled from the spec: the record type `runner.run_result.RunResult`
(not under `src/`), with exactly the fields passed to its constructor in
`SQLiteRunner.run` (lines 255-263) plus the `bug_dir` attribute written by
`SQLiteRunner.record_results` (line 485), absent (`none`) until archiving. -/
structure RunResult where
  outcome : Outcome
  sql_query : String
  db_path : Option String
  saved_db_path : Option String
  target_sqlite_version : String
  target_result : ExecutionResult
  reference_sqlite_version : String
  reference_result : ExecutionResult
  bug_dir : Option String
deriving DecidableEq, Repr

/-- One observable effect of `SQLiteRunner.run`: taking a snapshot of the
base database (with the returned copy path), or executing one program on the
query against one snapshot. -/
inductive Event
  | snap (base : Option String) (copy : Option String)
  | exec (program : String) (sql_query : String) (db : Option String)
deriving DecidableEq, Repr

/-- `e` is a snapshot event. -/
def Event.isSnap : Event → Bool
  | Event.snap _ _ => true
  | Event.exec _ _ _ => false

/-- `e` is an execution event of program `p`. -/
def Event.isExecOf (p : String) : Event → Bool
  | Event.snap _ _ => false
  | Event.exec q _ _ => q = p

/-- `List.enum` with an explicit starting index, used to model the
per-target loops of `SQLiteRunner.run` with their snapshot order. -/
def enumFrom (i : ℕ) : List α → List (ℕ × α)
  | [] => []
  | a :: as => (i, a) :: enumFrom (i + 1) as

/-- `SQLiteRunner.run` (lines 192-267) with its side effects made explicit:
`saveF i` is the copy path returned by the `i`-th `_save_database_state`
call of the trial (`0` for the reference copy, `1 + i` for the `i`-th
target's copy, `1 + targets.length` for the pristine reproducibility copy),
and `execF` is the executor.  Returns the result list (the Python dict in
insertion order; faithful when the target paths are distinct) together with
the trace of snapshot and execution effects in program order. -/
def runTrial (targets : List String) (reference_path : String)
    (saveF : ℕ → Option String)
    (execF : String → String → Option String → ExecutionResult)
    (inp : String × String) : List (String × RunResult) × List Event :=
  let sql_query := inp.1
  let db_path := inp.2
  let reference_db_path := saveF 0
  let target_db := fun i => saveF (1 + i)
  let saved_db_path := saveF (1 + targets.length)
  let reference_result := execF reference_path sql_query reference_db_path
  let results := (enumFrom 0 targets).map fun it =>
    let target_result := execF it.2 sql_query (target_db it.1)
    (it.2,
      ({ outcome := classifyOutcome reference_result target_result,
         sql_query := sql_query,
         db_path := target_db it.1,
         saved_db_path := saved_db_path,
         target_sqlite_version := versionOf it.2,
         target_result := target_result,
         reference_sqlite_version := versionOf reference_path,
         reference_result := reference_result,
         bug_dir := none } : RunResult))
  let trace := Event.snap (some db_path) reference_db_path
      :: ((enumFrom 0 targets).map fun it => Event.snap (some db_path) (target_db it.1))
      ++ Event.snap (some db_path) saved_db_path
      :: Event.exec reference_path sql_query reference_db_path
      :: (enumFrom 0 targets).map fun it => Event.exec it.2 sql_query (target_db it.1)
  (results, trace)

/-- The outcomes archived by `SQLiteRunner.record_results` (line 473). -/
def shouldArchive (o : Outcome) : Bool :=
  o = Outcome.CRASH ∨ o = Outcome.LOGIC_BUG ∨ o = Outcome.REFERENCE_ERROR

/-- The mutable session state of `SQLiteRunner`: the per-target outcome
counters, the trial counter, and the trailing history of recent results.
`archive_calls` is a ghost trace accumulating every `save_reproducer`
invocation (target, result, returned location); it corresponds to no Python
attribute and no code reads it. -/
structure SessionState where
  current_trial : ℕ
  stats : String → Outcome → ℕ
  run_results : List (String × RunResult)
  archive_calls : List (String × RunResult × String)

/-- `self.stats[target][outcome] = self.stats[target].get(outcome, 0) + 1`. -/
def bumpStat (s : String → Outcome → ℕ) (t : String) (o : Outcome) :
    String → Outcome → ℕ :=
  fun t' o' => if t' = t ∧ o' = o then s t' o' + 1 else s t' o'

/-- The entry actually held by the history after `record_results` processed
`p`: `bug_dir` points at the archive location exactly when the outcome was
archived (the Python history stores the same mutated object). -/
def storedEntry (saveRepro : String × RunResult → String) (p : String × RunResult) :
    String × RunResult :=
  (p.1, if shouldArchive p.2.outcome then { p.2 with bug_dir := some (saveRepro p) } else p.2)

/-- One iteration of the loop in `SQLiteRunner.record_results` (lines
463-485): bump the counter for this target's outcome, append the entry to the
history, and for CRASH, LOGIC_BUG and REFERENCE_ERROR call the bug tracker
and attach the returned directory to the result. -/
def recordStep (saveRepro : String × RunResult → String) (st : SessionState)
    (p : String × RunResult) : SessionState :=
  { current_trial := st.current_trial
    stats := bumpStat st.stats p.1 p.2.outcome
    run_results := st.run_results ++ [storedEntry saveRepro p]
    archive_calls := st.archive_calls ++
      (if shouldArchive p.2.outcome then [(p.1, p.2, saveRepro p)] else []) }

/-- Python `l[-n:]`: the last `n` elements (all of `l` when it is shorter). -/
def takeLast (n : ℕ) (l : List α) : List α :=
  l.drop (l.length - n)

/-- `SQLiteRunner.record_results` (lines 452-494): bump the trial counter,
process each (target, result) pair, then trim the history to the most recent
50 entries.  `saveRepro` models `bug_tracker.save_reproducer` (the returned
archive directory). -/
def record_results (saveRepro : String × RunResult → String) (st : SessionState)
    (rs : List (String × RunResult)) : SessionState :=
  let st1 : SessionState :=
    { current_trial := st.current_trial + 1
      stats := st.stats
      run_results := st.run_results
      archive_calls := st.archive_calls }
  let st2 := rs.foldl (recordStep saveRepro) st1
  { current_trial := st2.current_trial
    stats := st2.stats
    run_results :=
      if 50 < st2.run_results.length then takeLast 50 st2.run_results
      else st2.run_results
    archive_calls := st2.archive_calls }

/-- `SQLiteRunner.start_fuzzing_session` (lines 269-282): reset the trial
counter, clear the history, and zero every outcome counter.  The ghost
archive trace is untouched (the method touches no archiving state). -/
def start_fuzzing_session (st : SessionState) : SessionState :=
  { current_trial := 0
    stats := fun _ _ => 0
    run_results := []
    archive_calls := st.archive_calls }

/-- The sum of one target's five outcome counters. -/
def sumStats (s : String → Outcome → ℕ) (t : String) : ℕ :=
  s t Outcome.PASS + s t Outcome.CRASH + s t Outcome.LOGIC_BUG +
    s t Outcome.REFERENCE_ERROR + s t Outcome.INVALID_QUERY

/-! ### Whitespace and `pyStrip` lemmas -/

theorem dropWhile_eq_self_of_head {α : Type} (p : α → Bool) (l : List α)
    (h : ∀ c, l.head? = some c → p c = false) : l.dropWhile p = l := by
  cases l with
  | nil => rfl
  | cons a t =>
    have ha := h a rfl
    simp [List.dropWhile_cons, ha]

theorem head?_dropWhile {α : Type} (p : α → Bool) (l : List α) :
    ∀ c, (l.dropWhile p).head? = some c → p c = false := by
  intro c hc
  have h := List.head?_dropWhile_not p l
  rw [hc] at h
  exact h

theorem getLast?_dropWhile {α : Type} (p : α → Bool) (l : List α)
    (h : l.dropWhile p ≠ []) : (l.dropWhile p).getLast? = l.getLast? := by
  induction l with
  | nil => simp at h
  | cons a t ih =>
    by_cases hp : p a
    · rw [List.dropWhile_cons_of_pos hp] at h ⊢
      have ht : t ≠ [] := by
        intro he; rw [he] at h; simp at h
      rw [ih h]
      cases t with
      | nil => exact absurd rfl ht
      | cons b t' => rfl
    · rw [List.dropWhile_cons_of_neg hp]

theorem pyStrip_head? (l : List Char) :
    ∀ c, (pyStrip l).head? = some c → isPySpace c = false := by
  intro c hc
  unfold pyStrip at hc
  rw [List.head?_reverse] at hc
  have hne : (l.dropWhile isPySpace).reverse.dropWhile isPySpace ≠ [] := by
    intro he; rw [he] at hc; simp at hc
  rw [getLast?_dropWhile _ _ hne, List.getLast?_reverse] at hc
  exact head?_dropWhile isPySpace l c hc

theorem pyStrip_getLast? (l : List Char) :
    ∀ c, (pyStrip l).getLast? = some c → isPySpace c = false := by
  intro c hc
  unfold pyStrip at hc
  rw [List.getLast?_reverse] at hc
  exact head?_dropWhile isPySpace _ c hc

theorem pyStrip_eq_self (l : List Char)
    (h1 : ∀ c, l.head? = some c → isPySpace c = false)
    (h2 : ∀ c, l.getLast? = some c → isPySpace c = false) : pyStrip l = l := by
  unfold pyStrip
  rw [dropWhile_eq_self_of_head isPySpace l h1]
  rw [dropWhile_eq_self_of_head isPySpace l.reverse (by
    intro c hc
    rw [List.head?_reverse] at hc
    exact h2 c hc)]
  exact List.reverse_reverse l

theorem pyStrip_idem (l : List Char) : pyStrip (pyStrip l) = pyStrip l :=
  pyStrip_eq_self (pyStrip l) (pyStrip_head? l) (pyStrip_getLast? l)

theorem mem_pyStrip {c : Char} {l : List Char} (h : c ∈ pyStrip l) : c ∈ l := by
  unfold pyStrip at h
  rw [List.mem_reverse] at h
  have h2 := (List.dropWhile_sublist (l := (l.dropWhile isPySpace).reverse)
    (p := isPySpace)).subset h
  rw [List.mem_reverse] at h2
  exact (List.dropWhile_sublist (p := isPySpace)).subset h2

theorem pyStrip_eq_self_of_all (l : List Char)
    (h : ∀ c ∈ l, isPySpace c = false) : pyStrip l = l :=
  pyStrip_eq_self l
    (fun c hc => h c (List.mem_of_mem_head? hc))
    (fun c hc => h c (List.mem_of_getLast?_eq_some hc))

/-! ### `splitOnC` and `intercalateC` lemmas -/

theorem splitOnC_ne_nil (sep : Char) (l : List Char) : splitOnC sep l ≠ [] := by
  cases l with
  | nil => simp [splitOnC]
  | cons c rest =>
    by_cases h : c = sep
    · simp [splitOnC, h]
    · simp only [splitOnC, if_neg h]
      cases splitOnC sep rest <;> simp

theorem mem_splitOnC {sep : Char} {l : List Char} :
    ∀ p ∈ splitOnC sep l, sep ∉ p ∧ ∀ c ∈ p, c ∈ l := by
  induction l with
  | nil =>
    intro p hp
    simp [splitOnC] at hp
    simp [hp]
  | cons a t ih =>
    intro p hp
    by_cases h : a = sep
    · rw [show splitOnC sep (a :: t) = [] :: splitOnC sep t by simp [splitOnC, h]] at hp
      rcases List.mem_cons.1 hp with rfl | hp2
      · simp
      · obtain ⟨h1, h2⟩ := ih p hp2
        exact ⟨h1, fun c hc => List.mem_cons_of_mem a (h2 c hc)⟩
    · simp only [splitOnC, if_neg h] at hp
      rcases hq : splitOnC sep t with _ | ⟨q, qs⟩
      · exact absurd hq (splitOnC_ne_nil sep t)
      · rw [hq] at hp
        rcases List.mem_cons.1 hp with hp2 | hp2
        · subst hp2
          obtain ⟨h1, h2⟩ := ih q (hq ▸ List.mem_cons_self q qs)
          constructor
          · intro hmem
            rcases List.mem_cons.1 hmem with h' | h'
            · exact h (h'.symm)
            · exact h1 h'
          · intro c hc
            rcases List.mem_cons.1 hc with h' | h'
            · exact h' ▸ List.mem_cons_self a t
            · exact List.mem_cons_of_mem a (h2 c h')
        · obtain ⟨h1, h2⟩ := ih p (hq ▸ List.mem_cons_of_mem q hp2)
          exact ⟨h1, fun c hc => List.mem_cons_of_mem a (h2 c hc)⟩

theorem splitOnC_of_not_mem {sep : Char} {l : List Char} (h : sep ∉ l) :
    splitOnC sep l = [l] := by
  induction l with
  | nil => rfl
  | cons a t ih =>
    have ha : a ≠ sep := fun he => h (he ▸ List.mem_cons_self a t)
    have ht : sep ∉ t := fun hm => h (List.mem_cons_of_mem a hm)
    simp only [splitOnC, if_neg ha, ih ht]

theorem splitOnC_append_cons {sep : Char} {p : List Char} (h : sep ∉ p)
    (t : List Char) : splitOnC sep (p ++ sep :: t) = p :: splitOnC sep t := by
  induction p with
  | nil => simp [splitOnC]
  | cons a q ih =>
    have ha : a ≠ sep := fun he => h (he ▸ List.mem_cons_self a q)
    have hq : sep ∉ q := fun hm => h (List.mem_cons_of_mem a hm)
    simp only [List.cons_append, splitOnC, if_neg ha]
    rw [show q.append (sep :: t) = q ++ sep :: t from rfl, ih hq]

theorem splitOnC_intercalateC {sep : Char} {ps : List (List Char)}
    (hne : ps ≠ []) (h : ∀ p ∈ ps, sep ∉ p) :
    splitOnC sep (intercalateC sep ps) = ps := by
  induction ps with
  | nil => exact absurd rfl hne
  | cons p ps ih =>
    cases ps with
    | nil =>
      show splitOnC sep (intercalateC sep [p]) = [p]
      rw [show intercalateC sep [p] = p from rfl]
      exact splitOnC_of_not_mem (h p (List.mem_cons_self p []))
    | cons q qs =>
      rw [show intercalateC sep (p :: q :: qs) = p ++ sep :: intercalateC sep (q :: qs)
        from rfl]
      rw [splitOnC_append_cons (h p (List.mem_cons_self _ _)) _]
      rw [ih (by simp) (fun r hr => h r (List.mem_cons_of_mem p hr))]

theorem mem_intercalateC {sep : Char} {ps : List (List Char)} {c : Char}
    (h : c ∈ intercalateC sep ps) : c = sep ∨ ∃ p ∈ ps, c ∈ p := by
  induction ps with
  | nil => simp [intercalateC] at h
  | cons p ps ih =>
    cases ps with
    | nil =>
      right
      exact ⟨p, List.mem_cons_self p [], h⟩
    | cons q qs =>
      rw [show intercalateC sep (p :: q :: qs) = p ++ sep :: intercalateC sep (q :: qs)
        from rfl] at h
      rcases List.mem_append.1 h with h' | h'
      · exact Or.inr ⟨p, List.mem_cons_self _ _, h'⟩
      · rcases List.mem_cons.1 h' with h'' | h''
        · exact Or.inl h''
        · rcases ih h'' with h3 | ⟨r, hr, hc⟩
          · exact Or.inl h3
          · exact Or.inr ⟨r, List.mem_cons_of_mem p hr, hc⟩

/-! ### Digit lemmas -/

theorem isDigitC_toNat {c : Char} (h : isDigitC c = true) :
    48 ≤ c.toNat ∧ c.toNat ≤ 57 := by
  simpa [isDigitC] using h

theorem isDigitC_ne {c : Char} (h : isDigitC c = true) (d : Char)
    (hd : d.toNat < 48 ∨ 57 < d.toNat) : c ≠ d := by
  obtain ⟨h1, h2⟩ := isDigitC_toNat h
  intro he
  subst he
  omega

theorem isDigitC_not_space {c : Char} (h : isDigitC c = true) :
    isPySpace c = false := by
  have h1 : c ≠ ' ' := isDigitC_ne h ' ' (by decide)
  have h2 : c ≠ '\t' := isDigitC_ne h '\t' (by decide)
  have h3 : c ≠ '\n' := isDigitC_ne h '\n' (by decide)
  have h4 : c ≠ '\x0b' := isDigitC_ne h '\x0b' (by decide)
  have h5 : c ≠ '\x0c' := isDigitC_ne h '\x0c' (by decide)
  have h6 : c ≠ '\r' := isDigitC_ne h '\r' (by decide)
  simp [isPySpace, h1, h2, h3, h4, h5, h6]

theorem digitChar_lt_ten (n : ℕ) (h : n < 10) :
    isDigitC (digitChar n) = true ∧ digitVal (digitChar n) = n := by
  interval_cases n <;> exact ⟨by decide, by decide⟩

theorem digsVal_append (a b : List Char) (acc : ℕ) :
    digsVal (a ++ b) acc = digsVal b (digsVal a acc) := by
  simp [digsVal, List.foldl_append]

theorem lexDigits_cons_digit (c : Char) (h : isDigitC c = true) (rest : List Char)
    (acc n : ℕ) :
    lexDigits (c :: rest) acc n = lexDigits rest (acc * 10 + digitVal c) (n + 1) := by
  rw [lexDigits.eq_def]
  simp [h]

theorem lexDigits_stop (c : Char) (h1 : isDigitC c = false) (h2 : c ≠ '_')
    (rest : List Char) (acc n : ℕ) :
    lexDigits (c :: rest) acc n = (acc, n, c :: rest) := by
  rw [lexDigits.eq_def]
  simp [h1, h2]

theorem lexDigits_digits (ds : List Char) (hds : ∀ c ∈ ds, isDigitC c = true)
    (rest : List Char)
    (hrest : ∀ c, rest.head? = some c → isDigitC c = false ∧ c ≠ '_') :
    ∀ acc n, lexDigits (ds ++ rest) acc n = (digsVal ds acc, n + ds.length, rest) := by
  induction ds with
  | nil =>
    intro acc n
    rw [List.nil_append]
    cases rest with
    | nil => simp [lexDigits, digsVal]
    | cons c r =>
      obtain ⟨h1, h2⟩ := hrest c rfl
      rw [lexDigits_stop c h1 h2 r acc n]
      simp [digsVal]
  | cons d ds ih =>
    intro acc n
    have hd : isDigitC d = true := hds d (List.mem_cons_self d ds)
    rw [List.cons_append, lexDigits_cons_digit d hd _ acc n]
    rw [ih (fun c hc => hds c (List.mem_cons_of_mem d hc)) (acc * 10 + digitVal d) (n + 1)]
    refine congrArg (fun m => (digsVal ds (acc * 10 + digitVal d), m, rest)) ?_
    simp [List.length_cons]
    omega

theorem natDigitsAux_spec :
    ∀ fuel n acc, n < fuel →
      ∃ ds, natDigitsAux fuel n acc = ds ++ acc ∧ ds ≠ [] ∧
        (∀ c ∈ ds, isDigitC c = true) ∧ digsVal ds 0 = n := by
  intro fuel
  induction fuel with
  | zero => intro n acc h; omega
  | succ fuel ih =>
    intro n acc h
    by_cases hn : n < 10
    · refine ⟨[digitChar (n % 10)], ?_, by simp, ?_, ?_⟩
      · simp [natDigitsAux, hn]
      · intro c hc
        rw [List.mem_singleton] at hc
        subst hc
        exact (digitChar_lt_ten (n % 10) (Nat.mod_lt n (by omega))).1
      · rw [show digsVal [digitChar (n % 10)] 0 = digitVal (digitChar (n % 10)) by
          simp [digsVal]]
        rw [(digitChar_lt_ten (n % 10) (Nat.mod_lt n (by omega))).2]
        omega
    · have hdiv : n / 10 < fuel := by
        have := Nat.div_lt_self (by omega : 0 < n) (by omega : 1 < 10)
        omega
      obtain ⟨ds, heq, hne, hdig, hval⟩ := ih (n / 10) (digitChar (n % 10) :: acc) hdiv
      refine ⟨ds ++ [digitChar (n % 10)], ?_, by simp, ?_, ?_⟩
      · rw [show natDigitsAux (fuel + 1) n acc
            = natDigitsAux fuel (n / 10) (digitChar (n % 10) :: acc) by
          simp [natDigitsAux, hn]]
        rw [heq, List.append_assoc, List.singleton_append]
      · intro c hc
        rcases List.mem_append.1 hc with h' | h'
        · exact hdig c h'
        · rw [List.mem_singleton] at h'
          subst h'
          exact (digitChar_lt_ten (n % 10) (Nat.mod_lt n (by omega))).1
      · rw [digsVal_append, hval]
        rw [show digsVal [digitChar (n % 10)] (n / 10)
            = n / 10 * 10 + digitVal (digitChar (n % 10)) by simp [digsVal]]
        rw [(digitChar_lt_ten (n % 10) (Nat.mod_lt n (by omega))).2]
        omega

theorem natDigits_spec (n : ℕ) :
    ∃ ds, natDigits n = ds ∧ ds ≠ [] ∧
      (∀ c ∈ ds, isDigitC c = true) ∧ digsVal ds 0 = n := by
  obtain ⟨ds, heq, hne, hdig, hval⟩ := natDigitsAux_spec (n + 1) n [] (by omega)
  exact ⟨ds, by simpa [natDigits] using heq, hne, hdig, hval⟩

theorem fixedDigits_length (m n : ℕ) : (fixedDigits m n).length = m := by
  simp [fixedDigits]

theorem fixedDigits_digits (m n : ℕ) :
    ∀ c ∈ fixedDigits m n, isDigitC c = true := by
  intro c hc
  rw [fixedDigits, List.mem_map] at hc
  obtain ⟨k, _, hk⟩ := hc
  subst hk
  exact (digitChar_lt_ten _ (Nat.mod_lt _ (by omega))).1

theorem mod_pow_div_mod (n j m : ℕ) (h : j < m) :
    n % 10 ^ m / 10 ^ j % 10 = n / 10 ^ j % 10 := by
  have hm : 10 ^ m = 10 ^ j * 10 ^ (m - j) := by
    rw [← pow_add]
    congr 1
    omega
  rw [hm, Nat.mod_mul_right_div_self]
  have hdvd : (10 : ℕ) ∣ 10 ^ (m - j) :=
    dvd_pow_self 10 (by omega : m - j ≠ 0)
  exact Nat.mod_mod_of_dvd _ hdvd

theorem fixedDigits_succ (m n : ℕ) :
    fixedDigits (m + 1) n = digitChar (n / 10 ^ m % 10) :: fixedDigits m (n % 10 ^ m) := by
  unfold fixedDigits
  rw [List.range_succ_eq_map, List.map_cons, List.map_map]
  congr 1
  refine List.map_congr_left ?_
  intro k hk
  rw [List.mem_range] at hk
  simp only [Function.comp_apply]
  rw [show m + 1 - 1 - (k + 1) = m - 1 - k by omega]
  rw [mod_pow_div_mod n (m - 1 - k) m (by omega)]

theorem digsVal_fixedDigits :
    ∀ m n acc, n < 10 ^ m → digsVal (fixedDigits m n) acc = acc * 10 ^ m + n := by
  intro m
  induction m with
  | zero =>
    intro n acc h
    have : n = 0 := by simpa using h
    subst this
    simp [fixedDigits, digsVal]
  | succ m ih =>
    intro n acc h
    rw [fixedDigits_succ]
    have hlt : n / 10 ^ m % 10 < 10 := Nat.mod_lt _ (by omega)
    have hv := (digitChar_lt_ten _ hlt).2
    rw [show digsVal (digitChar (n / 10 ^ m % 10) :: fixedDigits m (n % 10 ^ m)) acc
        = digsVal (fixedDigits m (n % 10 ^ m)) (acc * 10 + digitVal (digitChar (n / 10 ^ m % 10)))
        from rfl]
    rw [ih (n % 10 ^ m) _ (Nat.mod_lt _ (by positivity))]
    rw [hv]
    have hdm : 10 ^ m * (n / 10 ^ m) + n % 10 ^ m = n := Nat.div_add_mod n (10 ^ m)
    have hq : n / 10 ^ m < 10 := by
      rw [Nat.div_lt_iff_lt_mul (by positivity)]
      calc n < 10 ^ (m + 1) := h
        _ = 10 * 10 ^ m := by ring

    have hq10 : n / 10 ^ m % 10 = n / 10 ^ m := Nat.mod_eq_of_lt hq
    rw [hq10, pow_succ]
    nlinarith [hdm]

/-! ### Parse/render round trip -/

theorem parseSignC_no_sign (l : List Char)
    (h : ∀ c, l.head? = some c → c ≠ '-' ∧ c ≠ '+') : parseSignC l = (false, l) := by
  cases l with
  | nil => rfl
  | cons c r =>
    obtain ⟨h1, h2⟩ := h c rfl
    simp [parseSignC, h1, h2]

theorem renderFix10_finite {neg : Bool} {num scale : ℕ} {e : ℤ}
    (h : scaled10 num scale e < overflow10) :
    renderFix10 neg num scale e
      = (if neg then ['-'] else []) ++ natDigits (scaled10 num scale e / 10 ^ 10)
        ++ '.' :: fixedDigits 10 (scaled10 num scale e % 10 ^ 10) := by
  rw [show renderFix10 neg num scale e
      = (if neg then ['-'] else []) ++
          (if overflow10 ≤ scaled10 num scale e then ['i', 'n', 'f']
           else natDigits (scaled10 num scale e / 10 ^ 10)
             ++ '.' :: fixedDigits 10 (scaled10 num scale e % 10 ^ 10)) from rfl]
  rw [if_neg (not_le.2 h), List.append_assoc]

theorem renderFix10_inf {neg : Bool} {num scale : ℕ} {e : ℤ}
    (h : overflow10 ≤ scaled10 num scale e) :
    renderFix10 neg num scale e = (if neg then ['-'] else []) ++ ['i', 'n', 'f'] := by
  rw [show renderFix10 neg num scale e
      = (if neg then ['-'] else []) ++
          (if overflow10 ≤ scaled10 num scale e then ['i', 'n', 'f']
           else natDigits (scaled10 num scale e / 10 ^ 10)
             ++ '.' :: fixedDigits 10 (scaled10 num scale e % 10 ^ 10)) from rfl]
  rw [if_pos h]

theorem parsePyFloat_renderFix10 (neg : Bool) (num scale : ℕ) (e : ℤ)
    (hov : scaled10 num scale e < overflow10) :
    parsePyFloat (renderFix10 neg num scale e)
    = some (neg, scaled10 num scale e, 10, 0) := by
  obtain ⟨ds, hds, hne, hdig, hval⟩ := natDigits_spec (scaled10 num scale e / 10 ^ 10)
  have hfp : scaled10 num scale e % 10 ^ 10 < 10 ^ 10 := Nat.mod_lt _ (by positivity)
  have hrender : renderFix10 neg num scale e
      = (if neg then ['-'] else []) ++ ds
        ++ '.' :: fixedDigits 10 (scaled10 num scale e % 10 ^ 10) := by
    rw [renderFix10_finite hov, hds]
  have hdot : ∀ c : Char,
      ('.' :: fixedDigits 10 (scaled10 num scale e % 10 ^ 10)).head? = some c →
      isDigitC c = false ∧ c ≠ '_' := by
    intro c hc
    rw [List.head?_cons, Option.some.injEq] at hc
    subst hc
    exact ⟨by decide, by decide⟩
  have hlex1 := lexDigits_digits ds hdig _ hdot 0 0
  have hnil : ∀ c : Char, ([] : List Char).head? = some c →
      isDigitC c = false ∧ c ≠ '_' := by
    intro c hc
    simp at hc
  have hlex2 := lexDigits_digits (fixedDigits 10 (scaled10 num scale e % 10 ^ 10))
      (fixedDigits_digits 10 _) [] hnil 0 0
  rw [List.append_nil] at hlex2
  have hsg : parseSignC (renderFix10 neg num scale e)
      = (neg, ds ++ '.' :: fixedDigits 10 (scaled10 num scale e % 10 ^ 10)) := by
    rw [hrender]
    cases neg with
    | true => simp [parseSignC]
    | false =>
      simp only [Bool.false_eq_true, if_false, List.nil_append]
      cases ds with
      | nil => exact absurd rfl hne
      | cons d0 ds' =>
        have hd0 := hdig d0 (List.mem_cons_self _ _)
        have h1 : d0 ≠ '-' := isDigitC_ne hd0 '-' (by decide)
        have h2 : d0 ≠ '+' := isDigitC_ne hd0 '+' (by decide)
        simp [parseSignC, h1, h2]
  have hlen : ds.length ≠ 0 := by
    cases ds with
    | nil => exact absurd rfl hne
    | cons d0 ds' => simp
  simp only [parsePyFloat, hsg, hlex1, hlex2, fixedDigits_length, parseExpPart,
    Nat.zero_add, Option.map_some]
  rw [if_neg (by
    intro hand
    exact hlen hand.1)]
  simp only [Option.map_some', Option.some.injEq, Prod.mk.injEq]
  rw [hval, digsVal_fixedDigits 10 _ 0 hfp]
  norm_num
  omega

/-! ### `renderFix10` and `normalizeField` shape lemmas -/

theorem renderFix10_structure (neg : Bool) (num scale : ℕ) (e : ℤ)
    (hov : scaled10 num scale e < overflow10) :
    ∃ ds, renderFix10 neg num scale e
        = (if neg then ['-'] else []) ++ ds
          ++ '.' :: fixedDigits 10 (scaled10 num scale e % 10 ^ 10)
      ∧ ds ≠ [] ∧ (∀ c ∈ ds, isDigitC c = true) := by
  obtain ⟨ds, hds, hne, hdig, _⟩ := natDigits_spec (scaled10 num scale e / 10 ^ 10)
  refine ⟨ds, ?_, hne, hdig⟩
  rw [renderFix10_finite hov, hds]

theorem sign_mem_char {neg : Bool} {c : Char}
    (h : c ∈ (if neg then ['-'] else [])) : c = '-' := by
  cases neg with
  | true =>
    rw [if_pos rfl, List.mem_singleton] at h
    exact h
  | false => simp at h

theorem renderFix10_chars (neg : Bool) (num scale : ℕ) (e : ℤ) :
    ∀ c ∈ renderFix10 neg num scale e,
      isDigitC c = true ∨ c = '-' ∨ c = '.' ∨ c = 'i' ∨ c = 'n' ∨ c = 'f' := by
  intro c hc
  by_cases hov : overflow10 ≤ scaled10 num scale e
  · rw [renderFix10_inf hov] at hc
    rcases List.mem_append.1 hc with h1 | h1
    · exact Or.inr (Or.inl (sign_mem_char h1))
    · rcases List.mem_cons.1 h1 with h2 | h2
      · exact Or.inr (Or.inr (Or.inr (Or.inl h2)))
      · rcases List.mem_cons.1 h2 with h3 | h3
        · exact Or.inr (Or.inr (Or.inr (Or.inr (Or.inl h3))))
        · rw [List.mem_singleton] at h3
          exact Or.inr (Or.inr (Or.inr (Or.inr (Or.inr h3))))
  · obtain ⟨ds, heq, _, hdig⟩ := renderFix10_structure neg num scale e (not_le.1 hov)
    rw [heq] at hc
    rcases List.mem_append.1 hc with h1 | h1
    · rcases List.mem_append.1 h1 with h2 | h2
      · exact Or.inr (Or.inl (sign_mem_char h2))
      · exact Or.inl (hdig c h2)
    · rcases List.mem_cons.1 h1 with h2 | h2
      · exact Or.inr (Or.inr (Or.inl h2))
      · exact Or.inl (fixedDigits_digits 10 _ c h2)

theorem renderFix10_not_space (neg : Bool) (num scale : ℕ) (e : ℤ) :
    ∀ c ∈ renderFix10 neg num scale e, isPySpace c = false := by
  intro c hc
  rcases renderFix10_chars neg num scale e c hc with h | h | h | h | h | h
  · exact isDigitC_not_space h
  · subst h; decide
  · subst h; decide
  · subst h; decide
  · subst h; decide
  · subst h; decide

theorem renderFix10_ne_nil (neg : Bool) (num scale : ℕ) (e : ℤ) :
    renderFix10 neg num scale e ≠ [] := by
  by_cases hov : overflow10 ≤ scaled10 num scale e
  · rw [renderFix10_inf hov]
    simp
  · obtain ⟨ds, heq, _, _⟩ := renderFix10_structure neg num scale e (not_le.1 hov)
    rw [heq]
    simp

theorem renderFix10_mem_dot (neg : Bool) (num scale : ℕ) (e : ℤ)
    (hov : scaled10 num scale e < overflow10) :
    '.' ∈ renderFix10 neg num scale e := by
  obtain ⟨ds, heq, _, _⟩ := renderFix10_structure neg num scale e hov
  rw [heq]
  exact List.mem_append.2 (Or.inr (List.mem_cons_self _ _))

theorem scaled10_fix (n : ℕ) : scaled10 n 10 0 = n := by
  rw [show scaled10 n 10 0 = if (0 : ℤ) ≤ 10 + 0 - 10
      then n * 10 ^ ((10 + 0 - 10 : ℤ)).toNat
      else 0 from rfl]
  norm_num

theorem renderFix10_fixpoint (neg : Bool) (num scale : ℕ) (e : ℤ) :
    renderFix10 neg (scaled10 num scale e) 10 0 = renderFix10 neg num scale e := by
  unfold renderFix10
  rw [scaled10_fix]

theorem contains_iff (l : List Char) (c : Char) : l.contains c = true ↔ c ∈ l :=
  List.elem_iff

theorem normalizeField_none {p : List Char}
    (h : parsePyFloat (pyStrip p) = none) : normalizeField p = pyStrip p := by
  simp only [normalizeField]
  rw [h]

theorem normalizeField_some_nodot {p : List Char} {neg : Bool} {num scale : ℕ} {e : ℤ}
    (h : parsePyFloat (pyStrip p) = some (neg, num, scale, e))
    (hdot : (pyStrip p).contains '.' = false) : normalizeField p = pyStrip p := by
  simp only [normalizeField]
  rw [h]
  have hnm : '.' ∉ pyStrip p := fun hm => by
    have hc := (contains_iff (pyStrip p) '.').2 hm
    rw [hdot] at hc
    exact Bool.noConfusion hc
  simp [hnm]

theorem normalizeField_some_dot {p : List Char} {neg : Bool} {num scale : ℕ} {e : ℤ}
    (h : parsePyFloat (pyStrip p) = some (neg, num, scale, e))
    (hdot : (pyStrip p).contains '.' = true) :
    normalizeField p = renderFix10 neg num scale e := by
  simp only [normalizeField]
  rw [h]
  have hm : '.' ∈ pyStrip p := (contains_iff _ _).1 hdot
  simp [hm]

theorem normalizeField_cases (p : List Char) :
    normalizeField p = pyStrip p ∨
      ∃ neg num scale e, parsePyFloat (pyStrip p) = some (neg, num, scale, e) ∧
        (pyStrip p).contains '.' = true ∧
        normalizeField p = renderFix10 neg num scale e := by
  rcases hpf : parsePyFloat (pyStrip p) with _ | ⟨neg, num, scale, e⟩
  · exact Or.inl (normalizeField_none hpf)
  · by_cases hdot : (pyStrip p).contains '.' = true
    · exact Or.inr ⟨neg, num, scale, e, rfl, hdot, normalizeField_some_dot hpf hdot⟩
    · exact Or.inl (normalizeField_some_nodot hpf (by simpa using hdot))

theorem normalizeField_stripNeutral (p : List Char) :
    pyStrip (normalizeField p) = normalizeField p := by
  rcases normalizeField_cases p with h | ⟨neg, num, scale, e, _, _, h⟩
  · rw [h, pyStrip_idem]
  · rw [h]
    exact pyStrip_eq_self_of_all _ (renderFix10_not_space neg num scale e)

theorem normalizeField_no_pipe {p : List Char} (h : '|' ∉ p) :
    '|' ∉ normalizeField p := by
  rcases normalizeField_cases p with he | ⟨neg, num, scale, e, _, _, he⟩
  · rw [he]
    exact fun hm => h (mem_pyStrip hm)
  · rw [he]
    intro hm
    rcases renderFix10_chars neg num scale e '|' hm with h1 | h1 | h1 | h1 | h1 | h1 <;>
      exact absurd h1 (by decide)

theorem normalizeField_no_newline {p : List Char} (h : '\n' ∉ p) :
    '\n' ∉ normalizeField p := by
  rcases normalizeField_cases p with he | ⟨neg, num, scale, e, _, _, he⟩
  · rw [he]
    exact fun hm => h (mem_pyStrip hm)
  · rw [he]
    intro hm
    rcases renderFix10_chars neg num scale e '\n' hm with h1 | h1 | h1 | h1 | h1 | h1 <;>
      exact absurd h1 (by decide)

theorem normalizeField_ne_nil {p : List Char} (h : pyStrip p ≠ []) :
    normalizeField p ≠ [] := by
  rcases normalizeField_cases p with he | ⟨neg, num, scale, e, _, _, he⟩
  · rw [he]; exact h
  · rw [he]; exact renderFix10_ne_nil neg num scale e

theorem normalizeField_idem (p : List Char) :
    normalizeField (normalizeField p) = normalizeField p := by
  rcases hpf : parsePyFloat (pyStrip p) with _ | ⟨neg, num, scale, e⟩
  · have he := normalizeField_none hpf
    rw [he]
    have h2 := normalizeField_none (p := pyStrip p) (by rw [pyStrip_idem]; exact hpf)
    rw [h2, pyStrip_idem]
  · by_cases hdot : (pyStrip p).contains '.' = true
    swap
    · have hdotf : (pyStrip p).contains '.' = false := by simpa using hdot
      have he := normalizeField_some_nodot hpf hdotf
      rw [he]
      have h2 := normalizeField_some_nodot (p := pyStrip p)
        (by rw [pyStrip_idem]; exact hpf) (by rw [pyStrip_idem]; exact hdotf)
      rw [h2, pyStrip_idem]
    · have he := normalizeField_some_dot hpf hdot
      rw [he]
      by_cases hov : overflow10 ≤ scaled10 num scale e
      · rw [renderFix10_inf hov]
        cases neg <;> decide
      · have hlt : scaled10 num scale e < overflow10 := not_le.1 hov
        have hstrip : pyStrip (renderFix10 neg num scale e) = renderFix10 neg num scale e :=
          pyStrip_eq_self_of_all _ (renderFix10_not_space neg num scale e)
        have hparse : parsePyFloat (pyStrip (renderFix10 neg num scale e))
            = some (neg, scaled10 num scale e, 10, 0) := by
          rw [hstrip]
          exact parsePyFloat_renderFix10 neg num scale e hlt
        have hdot2 : (pyStrip (renderFix10 neg num scale e)).contains '.' = true := by
          rw [hstrip]
          exact (contains_iff _ _).2 (renderFix10_mem_dot neg num scale e hlt)
        rw [normalizeField_some_dot hparse hdot2]
        exact renderFix10_fixpoint neg num scale e

/-! ### Line-level and output-level lemmas -/

theorem stripNeutral_head {q : List Char} (hq : pyStrip q = q) :
    ∀ c, q.head? = some c → isPySpace c = false := fun c hc =>
  pyStrip_head? q c (by rw [hq]; exact hc)

theorem stripNeutral_getLast {q : List Char} (hq : pyStrip q = q) :
    ∀ c, q.getLast? = some c → isPySpace c = false := fun c hc =>
  pyStrip_getLast? q c (by rw [hq]; exact hc)

theorem intercalateC_nil_of_eq_nil {sep : Char} {a : List Char} {l : List (List Char)}
    (h : intercalateC sep (a :: l) = []) : a = [] := by
  cases l with
  | nil => exact h
  | cons b bs =>
    rw [show intercalateC sep (a :: b :: bs) = a ++ sep :: intercalateC sep (b :: bs)
      from rfl] at h
    exact absurd h (by simp)

theorem intercalateC_head_ok (sep : Char) (ps : List (List Char))
    (hs : isPySpace sep = false ∨ ∀ q ∈ ps, q ≠ [])
    (hq : ∀ q ∈ ps, pyStrip q = q) :
    ∀ c, (intercalateC sep ps).head? = some c → isPySpace c = false := by
  intro c hc
  cases ps with
  | nil => simp [intercalateC] at hc
  | cons q qs =>
    cases qs with
    | nil => exact stripNeutral_head (hq q (List.mem_cons_self q [])) c hc
    | cons q' qs' =>
      rw [show intercalateC sep (q :: q' :: qs') = q ++ sep :: intercalateC sep (q' :: qs')
        from rfl] at hc
      cases q with
      | nil =>
        rw [List.nil_append, List.head?_cons, Option.some.injEq] at hc
        subst hc
        rcases hs with hs | hs
        · exact hs
        · exact absurd rfl (hs [] (List.mem_cons_self _ _))
      | cons d q0 =>
        rw [List.cons_append, List.head?_cons, Option.some.injEq] at hc
        exact hc ▸ stripNeutral_head (hq _ (List.mem_cons_self _ _)) d rfl

theorem intercalateC_getLast_ok (sep : Char) (ps : List (List Char))
    (hs : isPySpace sep = false ∨ ∀ q ∈ ps, q ≠ [])
    (hq : ∀ q ∈ ps, pyStrip q = q) :
    ∀ c, (intercalateC sep ps).getLast? = some c → isPySpace c = false := by
  induction ps with
  | nil => intro c hc; simp [intercalateC] at hc
  | cons q qs ih =>
    intro c hc
    cases qs with
    | nil => exact stripNeutral_getLast (hq q (List.mem_cons_self q [])) c hc
    | cons q' qs' =>
      rw [show intercalateC sep (q :: q' :: qs') = q ++ sep :: intercalateC sep (q' :: qs')
        from rfl] at hc
      rw [List.getLast?_append] at hc
      rcases hX : intercalateC sep (q' :: qs') with _ | ⟨x, xs⟩
      · have hq' : q' = [] := intercalateC_nil_of_eq_nil hX
        rw [hX] at hc
        simp at hc
        subst hc
        rcases hs with hs | hs
        · exact hs
        · exact absurd hq' (hs q' (List.mem_cons_of_mem q (List.mem_cons_self _ _)))
      · rw [hX, List.getLast?_cons_cons] at hc
        rcases hY : (x :: xs).getLast? with _ | y
        · rw [List.getLast?_eq_none_iff] at hY
          exact absurd hY (by simp)
        · rw [hY, Option.or_some] at hc
          refine ih ?_ (fun r hr => hq r (List.mem_cons_of_mem q hr)) c ?_
          · rcases hs with hs | hs
            · exact Or.inl hs
            · exact Or.inr (fun r hr => hs r (List.mem_cons_of_mem q hr))
          · rw [hX, hY]
            exact hc

theorem intercalateC_stripNeutral (sep : Char) (ps : List (List Char))
    (hs : isPySpace sep = false ∨ ∀ q ∈ ps, q ≠ [])
    (hq : ∀ q ∈ ps, pyStrip q = q) :
    pyStrip (intercalateC sep ps) = intercalateC sep ps :=
  pyStrip_eq_self _ (intercalateC_head_ok sep ps hs hq) (intercalateC_getLast_ok sep ps hs hq)

theorem intercalateC_splitOnC (sep : Char) (l : List Char) :
    intercalateC sep (splitOnC sep l) = l := by
  induction l with
  | nil => rfl
  | cons c rest ih =>
    by_cases h : c = sep
    · rw [show splitOnC sep (c :: rest) = [] :: splitOnC sep rest by simp [splitOnC, h]]
      rcases hX : splitOnC sep rest with _ | ⟨p, ps⟩
      · exact absurd hX (splitOnC_ne_nil sep rest)
      · rw [show intercalateC sep ([] :: p :: ps) = [] ++ sep :: intercalateC sep (p :: ps)
          from rfl, List.nil_append, ← hX, ih, h]
    · simp only [splitOnC, if_neg h]
      rcases hX : splitOnC sep rest with _ | ⟨p, ps⟩
      · exact absurd hX (splitOnC_ne_nil sep rest)
      · show intercalateC sep ((c :: p) :: ps) = c :: rest
        rw [hX] at ih
        cases ps with
        | nil =>
          show c :: p = c :: rest
          rw [show intercalateC sep [p] = p from rfl] at ih
          rw [ih]
        | cons y ys =>
          show (c :: p) ++ sep :: intercalateC sep (y :: ys) = c :: rest
          rw [show intercalateC sep (p :: y :: ys)
              = p ++ sep :: intercalateC sep (y :: ys) from rfl] at ih
          rw [List.cons_append, ih]

theorem normalizeLine_props (line : List Char) (hnl : '\n' ∉ line)
    (hnb : pyStrip line ≠ []) :
    normalizeLine line ≠ [] ∧
    pyStrip (normalizeLine line) = normalizeLine line ∧
    '\n' ∉ normalizeLine line ∧
    normalizeLine (normalizeLine line) = normalizeLine line := by
  have hparts := @mem_splitOnC '|' line
  have hfields : ∀ q ∈ (splitOnC '|' line).map normalizeField,
      '|' ∉ q ∧ '\n' ∉ q ∧ pyStrip q = q := by
    intro q hqm
    rw [List.mem_map] at hqm
    obtain ⟨p, hpm, hpq⟩ := hqm
    obtain ⟨hp1, hp2⟩ := hparts p hpm
    subst hpq
    exact ⟨normalizeField_no_pipe hp1,
      normalizeField_no_newline (fun hm => hnl (hp2 _ hm)),
      normalizeField_stripNeutral p⟩
  have hsn : pyStrip (normalizeLine line) = normalizeLine line := by
    unfold normalizeLine
    exact intercalateC_stripNeutral '|' _ (Or.inl (by decide))
      (fun q hqm => (hfields q hqm).2.2)
  have hnn : '\n' ∉ normalizeLine line := by
    intro hm
    rcases mem_intercalateC hm with h1 | ⟨q, hqm, hcq⟩
    · exact absurd h1 (by decide)
    · exact (hfields q hqm).2.1 hcq
  have hne : normalizeLine line ≠ [] := by
    unfold normalizeLine
    rcases hX : splitOnC '|' line with _ | ⟨p, ps⟩
    · exact absurd hX (splitOnC_ne_nil '|' line)
    · cases ps with
      | nil =>
        have hpl : p = line := by
          have := intercalateC_splitOnC '|' line
          rw [hX] at this
          exact this
        subst hpl
        rw [show List.map normalizeField [p] = [normalizeField p] from rfl]
        rw [show intercalateC '|' [normalizeField p] = normalizeField p from rfl]
        exact normalizeField_ne_nil hnb
      | cons y ys =>
        rw [show List.map normalizeField (p :: y :: ys)
            = normalizeField p :: List.map normalizeField (y :: ys) from rfl]
        rw [show intercalateC '|' (normalizeField p :: List.map normalizeField (y :: ys))
            = normalizeField p ++ '|' :: intercalateC '|' (List.map normalizeField (y :: ys))
          by cases hY : List.map normalizeField (y :: ys) with
             | nil => exact absurd hY (by simp)
             | cons z zs => rfl]
        simp
  refine ⟨hne, hsn, hnn, ?_⟩
  have hmapne : (splitOnC '|' line).map normalizeField ≠ [] := by
    intro he
    exact splitOnC_ne_nil '|' line (List.map_eq_nil_iff.1 he)
  have hkey : splitOnC '|' (normalizeLine line) = (splitOnC '|' line).map normalizeField := by
    rw [show normalizeLine line
        = intercalateC '|' ((splitOnC '|' line).map normalizeField) from rfl]
    exact splitOnC_intercalateC hmapne (fun q hqm => (hfields q hqm).1)
  have hmapidem : ((splitOnC '|' line).map normalizeField).map normalizeField
      = (splitOnC '|' line).map normalizeField := by
    rw [List.map_map]
    refine List.map_congr_left ?_
    intro p hpm
    simp only [Function.comp_apply]
    exact normalizeField_idem p
  rw [show normalizeLine (normalizeLine line)
      = intercalateC '|' ((splitOnC '|' (normalizeLine line)).map normalizeField) from rfl]
  rw [hkey, hmapidem]
  rfl

theorem normalizeChars_idem (out : List Char) :
    normalizeChars (normalizeChars out) = normalizeChars out := by
  have hlines : ∀ l ∈ (splitOnC '\n' (pyStrip out)).filter
      (fun line => !(pyStrip line).isEmpty), '\n' ∉ l ∧ pyStrip l ≠ [] := by
    intro l hl
    rw [List.mem_filter] at hl
    obtain ⟨hl0, hl1⟩ := hl
    refine ⟨(mem_splitOnC l hl0).1, ?_⟩
    intro he
    rw [he] at hl1
    simp at hl1
  have hnls : ∀ nl ∈ ((splitOnC '\n' (pyStrip out)).filter
      (fun line => !(pyStrip line).isEmpty)).map normalizeLine,
      nl ≠ [] ∧ pyStrip nl = nl ∧ '\n' ∉ nl ∧ normalizeLine nl = nl := by
    intro nl hm
    rw [List.mem_map] at hm
    obtain ⟨l, hlm, hln⟩ := hm
    obtain ⟨h1, h2⟩ := hlines l hlm
    obtain ⟨p1, p2, p3, p4⟩ := normalizeLine_props l h1 h2
    subst hln
    exact ⟨p1, p2, p3, p4⟩
  rcases hX : ((splitOnC '\n' (pyStrip out)).filter
      (fun line => !(pyStrip line).isEmpty)).map normalizeLine with _ | ⟨nl, nls⟩
  · rw [show normalizeChars out
        = intercalateC '\n' (((splitOnC '\n' (pyStrip out)).filter
            (fun line => !(pyStrip line).isEmpty)).map normalizeLine) from rfl, hX]
    rw [show intercalateC '\n' ([] : List (List Char)) = [] from rfl]
    rfl
  · rw [show normalizeChars out
        = intercalateC '\n' (((splitOnC '\n' (pyStrip out)).filter
            (fun line => !(pyStrip line).isEmpty)).map normalizeLine) from rfl, hX]
    rw [hX] at hnls
    have hne : (nl :: nls : List (List Char)) ≠ [] := by simp
    have hstrip : pyStrip (intercalateC '\n' (nl :: nls)) = intercalateC '\n' (nl :: nls) :=
      intercalateC_stripNeutral '\n' _ (Or.inr (fun q hq => (hnls q hq).1))
        (fun q hq => (hnls q hq).2.1)
    rw [show normalizeChars (intercalateC '\n' (nl :: nls))
        = intercalateC '\n' (((splitOnC '\n' (pyStrip (intercalateC '\n' (nl :: nls)))).filter
            (fun line => !(pyStrip line).isEmpty)).map normalizeLine) from rfl]
    rw [hstrip]
    rw [splitOnC_intercalateC hne (fun q hq => (hnls q hq).2.2.1)]
    rw [List.filter_eq_self.2 (fun q hq => by
      rw [(hnls q hq).2.1]
      cases hq2 : q with
      | nil => exact absurd hq2 (hnls q hq).1
      | cons a as => simp)]
    rw [List.map_congr_left (fun q hq => (hnls q hq).2.2.2)]
    exact congrArg (intercalateC '\n') (List.map_id _)

/-! ### Session-state lemmas (`record_results`, `start_fuzzing_session`) -/

theorem takeLast_of_le {α : Type} {n : ℕ} {l : List α} (h : l.length ≤ n) :
    takeLast n l = l := by
  unfold takeLast
  rw [Nat.sub_eq_zero_of_le h, List.drop_zero]

theorem takeLast_length_le {α : Type} (n : ℕ) (l : List α) :
    (takeLast n l).length ≤ n := by
  unfold takeLast
  rw [List.length_drop]
  omega

theorem takeLast_cons_of_le {α : Type} {n : ℕ} (x : α) {xs : List α}
    (h : n ≤ xs.length) : takeLast n (x :: xs) = takeLast n xs := by
  unfold takeLast
  rw [List.length_cons, show xs.length + 1 - n = (xs.length - n) + 1 by omega,
    List.drop_succ_cons]

theorem takeLast_idem_append {α : Type} (n : ℕ) (xs ys : List α) :
    takeLast n (takeLast n xs ++ ys) = takeLast n (xs ++ ys) := by
  induction xs with
  | nil => rw [takeLast_of_le (by simp : ([] : List α).length ≤ n)]
  | cons x rest ih =>
    by_cases h : (x :: rest).length ≤ n
    · rw [takeLast_of_le h]
    · have hrest : n ≤ rest.length := by
        rw [List.length_cons] at h
        omega
      rw [takeLast_cons_of_le x hrest, ih, List.cons_append,
        takeLast_cons_of_le x (by rw [List.length_append]; omega)]

theorem recordStep_foldl_stats (save : String × RunResult → String)
    (rs : List (String × RunResult)) :
    ∀ st : SessionState,
      (rs.foldl (recordStep save) st).stats
        = rs.foldl (fun s p => bumpStat s p.1 p.2.outcome) st.stats := by
  induction rs with
  | nil => intro st; rfl
  | cons p rs ih =>
    intro st
    rw [List.foldl_cons, List.foldl_cons, ih]
    rfl

theorem recordStep_foldl_history (save : String × RunResult → String)
    (rs : List (String × RunResult)) :
    ∀ st : SessionState,
      (rs.foldl (recordStep save) st).run_results
        = st.run_results ++ rs.map (storedEntry save) := by
  induction rs with
  | nil => intro st; simp
  | cons p rs ih =>
    intro st
    rw [List.foldl_cons, ih]
    rw [show (recordStep save st p).run_results
        = st.run_results ++ [storedEntry save p] from rfl]
    simp

theorem recordStep_foldl_archive (save : String × RunResult → String)
    (rs : List (String × RunResult)) :
    ∀ st : SessionState,
      (rs.foldl (recordStep save) st).archive_calls
        = st.archive_calls ++ (rs.filter (fun p => shouldArchive p.2.outcome)).map
            (fun p => (p.1, p.2, save p)) := by
  induction rs with
  | nil => intro st; simp
  | cons p rs ih =>
    intro st
    rw [List.foldl_cons, ih]
    rw [show (recordStep save st p).archive_calls
        = st.archive_calls ++
            (if shouldArchive p.2.outcome then [(p.1, p.2, save p)] else []) from rfl]
    rcases h : shouldArchive p.2.outcome with _ | _
    · simp [List.filter_cons, h]
    · simp [List.filter_cons, h]

theorem sumStats_bumpStat (s : String → Outcome → ℕ) (t0 : String) (o : Outcome)
    (t : String) :
    sumStats (bumpStat s t0 o) t = sumStats s t + if t0 = t then 1 else 0 := by
  by_cases ht : t0 = t
  · subst ht
    cases o <;> simp [sumStats, bumpStat] <;> omega
  · have ht' : ¬(t = t0) := fun he => ht he.symm
    simp [sumStats, bumpStat, ht', ht]

theorem bumpStat_le (s : String → Outcome → ℕ) (t0 : String) (o : Outcome)
    (t : String) (o' : Outcome) : s t o' ≤ bumpStat s t0 o t o' := by
  unfold bumpStat
  by_cases h : t = t0 ∧ o' = o
  · rw [if_pos h]; omega
  · rw [if_neg h]

theorem stats_foldl_sum (rs : List (String × RunResult)) (t : String) :
    ∀ s : String → Outcome → ℕ,
      sumStats (rs.foldl (fun s p => bumpStat s p.1 p.2.outcome) s) t
        = sumStats s t + rs.countP (fun p => decide (p.1 = t)) := by
  induction rs with
  | nil => intro s; simp
  | cons p rs ih =>
    intro s
    rw [List.foldl_cons, ih, sumStats_bumpStat, List.countP_cons]
    by_cases h : p.1 = t
    · simp [h]
      omega
    · simp [h]

theorem record_results_stats (save : String × RunResult → String) (st : SessionState)
    (rs : List (String × RunResult)) (t : String) :
    sumStats (record_results save st rs).stats t
      = sumStats st.stats t + rs.countP (fun p => decide (p.1 = t)) := by
  rw [show (record_results save st rs).stats
      = (rs.foldl (recordStep save)
          { current_trial := st.current_trial + 1, stats := st.stats,
            run_results := st.run_results, archive_calls := st.archive_calls }).stats
    from rfl]
  rw [recordStep_foldl_stats, stats_foldl_sum]

theorem stats_foldl_le (rs : List (String × RunResult)) (t : String) (o : Outcome) :
    ∀ s, s t o ≤ (rs.foldl (fun s p => bumpStat s p.1 p.2.outcome) s) t o := by
  induction rs with
  | nil => intro s; exact le_refl _
  | cons p rs ih =>
    intro s
    rw [List.foldl_cons]
    exact le_trans (bumpStat_le s p.1 p.2.outcome t o) (ih _)

theorem record_results_mono (save : String × RunResult → String) (st : SessionState)
    (rs : List (String × RunResult)) (t : String) (o : Outcome) :
    st.stats t o ≤ (record_results save st rs).stats t o := by
  rw [show (record_results save st rs).stats
      = (rs.foldl (recordStep save)
          { current_trial := st.current_trial + 1, stats := st.stats,
            run_results := st.run_results, archive_calls := st.archive_calls }).stats
    from rfl]
  rw [recordStep_foldl_stats]
  exact stats_foldl_le rs t o st.stats

theorem record_results_history (save : String × RunResult → String) (st : SessionState)
    (rs : List (String × RunResult)) :
    (record_results save st rs).run_results
      = takeLast 50 (st.run_results ++ rs.map (storedEntry save)) := by
  have h := recordStep_foldl_history save rs
    ⟨st.current_trial + 1, st.stats, st.run_results, st.archive_calls⟩
  rw [show ((⟨st.current_trial + 1, st.stats, st.run_results, st.archive_calls⟩ :
      SessionState)).run_results = st.run_results from rfl] at h
  rw [show (record_results save st rs).run_results
      = (if 50 < (rs.foldl (recordStep save)
            ⟨st.current_trial + 1, st.stats, st.run_results, st.archive_calls⟩).run_results.length
         then takeLast 50 (rs.foldl (recordStep save)
            ⟨st.current_trial + 1, st.stats, st.run_results, st.archive_calls⟩).run_results
         else (rs.foldl (recordStep save)
            ⟨st.current_trial + 1, st.stats, st.run_results, st.archive_calls⟩).run_results)
    from rfl]
  rw [h]
  by_cases hlen : 50 < (st.run_results ++ rs.map (storedEntry save)).length
  · rw [if_pos hlen]
  · rw [if_neg hlen, takeLast_of_le (by omega)]

theorem record_results_archive (save : String × RunResult → String) (st : SessionState)
    (rs : List (String × RunResult)) :
    (record_results save st rs).archive_calls
      = st.archive_calls ++ (rs.filter (fun p => shouldArchive p.2.outcome)).map
          (fun p => (p.1, p.2, save p)) := by
  have h := recordStep_foldl_archive save rs
    ⟨st.current_trial + 1, st.stats, st.run_results, st.archive_calls⟩
  rw [show ((⟨st.current_trial + 1, st.stats, st.run_results, st.archive_calls⟩ :
      SessionState)).archive_calls = st.archive_calls from rfl] at h
  rw [show (record_results save st rs).archive_calls
      = (rs.foldl (recordStep save)
          ⟨st.current_trial + 1, st.stats, st.run_results, st.archive_calls⟩).archive_calls
    from rfl]
  exact h

theorem session_history_after (save : String × RunResult → String)
    (css : List (List (String × RunResult))) :
    ∀ (st : SessionState) (h : List (String × RunResult)),
      st.run_results = takeLast 50 h →
      (css.foldl (record_results save) st).run_results
        = takeLast 50 (h ++ (css.flatten).map (storedEntry save)) := by
  induction css with
  | nil =>
    intro st h hst
    simpa using hst
  | cons cs css ih =>
    intro st h hst
    rw [List.foldl_cons]
    have h1 : (record_results save st cs).run_results
        = takeLast 50 (h ++ cs.map (storedEntry save)) := by
      rw [record_results_history, hst, takeLast_idem_append]
    rw [ih _ _ h1, List.flatten_cons, List.map_append, List.append_assoc]

theorem session_stats_after (save : String × RunResult → String)
    (css : List (List (String × RunResult))) (t : String) :
    ∀ st : SessionState,
      sumStats ((css.foldl (record_results save) st).stats) t
        = sumStats st.stats t + (css.flatten).countP (fun p => decide (p.1 = t)) := by
  induction css with
  | nil => intro st; simp
  | cons cs css ih =>
    intro st
    rw [List.foldl_cons, ih, record_results_stats, List.flatten_cons, List.countP_append]
    omega

/-! ### Claim theorems: session aggregation -/

/-- Claim C4: the output normalizer is idempotent — for every input text `x`,
`normalize(normalize(x))` equals `normalize(x)` (over the exact-decimal model
of Python floats described in the module comment). -/
theorem normalize_output_idempotent (x : String) :
    normalize_output (normalize_output x) = normalize_output x :=
  congrArg String.mk (normalizeChars_idem x.data)

/-- Claim C8: starting from a session reset (all five counters zeroed for
every target) followed by any sequence of `record_results` calls, each
target's five `SessionStats` counters sum to exactly the number of
(target, RunResult) pairs recorded for that target, and each single counter
is monotonically non-decreasing across any record call. -/
theorem session_stats_invariant (st0 : SessionState)
    (save : String × RunResult → String)
    (css : List (List (String × RunResult))) (t : String) :
    sumStats ((css.foldl (record_results save) (start_fuzzing_session st0)).stats) t
      = (css.flatten).countP (fun p => decide (p.1 = t)) ∧
    (∀ (st : SessionState) (rs : List (String × RunResult)) (o : Outcome),
      st.stats t o ≤ (record_results save st rs).stats t o) := by
  constructor
  · rw [session_stats_after]
    rw [show sumStats (start_fuzzing_session st0).stats t = 0 from rfl]
    omega
  · intro st rs o
    exact record_results_mono save st rs t o

/-- Claim C9: after a session reset and any sequence of `record_results`
calls, the trailing history holds exactly the most recently recorded
(target, RunResult) entries in recording order (as stored, i.e. with the
archive location attached where archiving happened), the oldest entries
evicted first, and its length never exceeds the fixed bound of 50. -/
theorem session_history_invariant (st0 : SessionState)
    (save : String × RunResult → String)
    (css : List (List (String × RunResult))) :
    (css.foldl (record_results save) (start_fuzzing_session st0)).run_results
      = takeLast 50 ((css.flatten).map (storedEntry save)) ∧
    ((css.foldl (record_results save) (start_fuzzing_session st0)).run_results).length
      ≤ 50 := by
  have h := session_history_after save css (start_fuzzing_session st0) [] (by rfl)
  rw [List.nil_append] at h
  exact ⟨h, by rw [h]; exact takeLast_length_le 50 _⟩

/-- Claim C3 (counterexample): a RunResult with outcome `INVALID_QUERY` is not
PASS, yet `record_results` performs no archiver invocation for it and leaves
its archive location empty — contradicting the claim that every non-PASS
RunResult is archived. -/
theorem record_results_invalid_query_unarchived :
    (record_results (fun _ => "archive/bug-0001")
        ⟨0, fun _ _ => 0, [], []⟩
        [("sqlite3-target", ⟨Outcome.INVALID_QUERY, "SELECT 1", none, none, "v1",
          ⟨1, "", "error"⟩, "v2", ⟨1, "", "error"⟩, none⟩)]).archive_calls = [] ∧
    Outcome.INVALID_QUERY ≠ Outcome.PASS ∧
    (record_results (fun _ => "archive/bug-0001")
        ⟨0, fun _ _ => 0, [], []⟩
        [("sqlite3-target", ⟨Outcome.INVALID_QUERY, "SELECT 1", none, none, "v1",
          ⟨1, "", "error"⟩, "v2", ⟨1, "", "error"⟩, none⟩)]).run_results
      = [("sqlite3-target", ⟨Outcome.INVALID_QUERY, "SELECT 1", none, none, "v1",
          ⟨1, "", "error"⟩, "v2", ⟨1, "", "error"⟩, none⟩)] := by
  refine ⟨?_, by decide, ?_⟩
  · rw [record_results_archive]
    rfl
  · rw [record_results_history]
    rfl

/-- Claim C3 (amended): `record_results` invokes the BugArchiver exactly for
the RunResults whose outcome is CRASH, LOGIC_BUG or REFERENCE_ERROR, in
order, attaching each returned archive location to the stored RunResult;
INVALID_QUERY (and PASS) results are not archived. -/
theorem record_results_archives_crash_logic_reference
    (save : String × RunResult → String) (st : SessionState)
    (rs : List (String × RunResult)) :
    (record_results save st rs).archive_calls
      = st.archive_calls ++ (rs.filter (fun p => shouldArchive p.2.outcome)).map
          (fun p => (p.1, p.2, save p)) ∧
    (∀ p : String × RunResult, shouldArchive p.2.outcome = true →
      (storedEntry save p).2.bug_dir = some (save p)) ∧
    (∀ p : String × RunResult, shouldArchive p.2.outcome = false →
      storedEntry save p = p) ∧
    (∀ o : Outcome, shouldArchive o = true ↔
      (o = Outcome.CRASH ∨ o = Outcome.LOGIC_BUG ∨ o = Outcome.REFERENCE_ERROR)) := by
  refine ⟨record_results_archive save st rs, ?_, ?_, ?_⟩
  · intro p hp
    simp [storedEntry, hp]
  · intro p hp
    simp [storedEntry, hp]
  · intro o
    cases o <;> simp [shouldArchive]

/-! ### `runTrial` lemmas and claim -/

theorem enumFrom_length {α : Type} (i : ℕ) (l : List α) :
    (enumFrom i l).length = l.length := by
  induction l generalizing i with
  | nil => rfl
  | cons a as ih => simp [enumFrom, ih]

theorem enumFrom_map_snd {α : Type} (i : ℕ) (l : List α) :
    (enumFrom i l).map Prod.snd = l := by
  induction l generalizing i with
  | nil => rfl
  | cons a as ih => simp [enumFrom, ih]

theorem enumFrom_mem_snd {α : Type} {i : ℕ} {l : List α} {it : ℕ × α}
    (h : it ∈ enumFrom i l) : it.2 ∈ l := by
  induction l generalizing i with
  | nil => simp [enumFrom] at h
  | cons a as ih =>
    rw [show enumFrom i (a :: as) = (i, a) :: enumFrom (i + 1) as from rfl] at h
    rcases List.mem_cons.1 h with h1 | h1
    · subst h1
      exact List.mem_cons_self a as
    · exact List.mem_cons_of_mem a (ih h1)

theorem enumFrom_getElem? {α : Type} :
    ∀ (l : List α) (i k : ℕ),
      (enumFrom i l)[k]? = l[k]?.map (fun a => (i + k, a)) := by
  intro l
  induction l with
  | nil => intro i k; simp [enumFrom]
  | cons a as ih =>
    intro i k
    cases k with
    | zero => simp [enumFrom]
    | succ k =>
      rw [show enumFrom i (a :: as) = (i, a) :: enumFrom (i + 1) as from rfl]
      rw [List.getElem?_cons_succ, List.getElem?_cons_succ, ih (i + 1) k]
      cases as[k]? <;> simp <;> omega

theorem runTrial_eq (targets : List String) (reference_path : String)
    (saveF : ℕ → Option String)
    (execF : String → String → Option String → ExecutionResult) (sql db : String) :
    runTrial targets reference_path saveF execF (sql, db)
      = ((enumFrom 0 targets).map fun it =>
          (it.2,
            ({ outcome := classifyOutcome (execF reference_path sql (saveF 0))
                  (execF it.2 sql (saveF (1 + it.1))),
               sql_query := sql,
               db_path := saveF (1 + it.1),
               saved_db_path := saveF (1 + targets.length),
               target_sqlite_version := versionOf it.2,
               target_result := execF it.2 sql (saveF (1 + it.1)),
               reference_sqlite_version := versionOf reference_path,
               reference_result := execF reference_path sql (saveF 0),
               bug_dir := none } : RunResult)),
        Event.snap (some db) (saveF 0)
          :: ((enumFrom 0 targets).map fun it => Event.snap (some db) (saveF (1 + it.1)))
          ++ Event.snap (some db) (saveF (1 + targets.length))
          :: Event.exec reference_path sql (saveF 0)
          :: (enumFrom 0 targets).map fun it => Event.exec it.2 sql (saveF (1 + it.1))) :=
  rfl

/-- Claim C6: per trial, `run` takes one snapshot of the base state for the
reference, one independent snapshot per target, and the reproducibility copy,
all from the same base path and all before any execution; then it runs the
reference exactly once, then each target against its own snapshot; and every
RunResult in the returned mapping (one per listed target, in order) carries
the single shared reference ExecutionResult.  The Python dict of results is
modelled as the association list in insertion order, which is faithful when
the target paths are distinct (`hnd`); counting the reference execution uses
that the reference binary is not itself a target (`href`). -/
theorem runTrial_spec (targets : List String) (reference_path : String)
    (saveF : ℕ → Option String)
    (execF : String → String → Option String → ExecutionResult)
    (sql db : String) (hnd : targets.Nodup) (href : reference_path ∉ targets) :
    ((runTrial targets reference_path saveF execF (sql, db)).2.take
        (targets.length + 2)).length = targets.length + 2 ∧
    (∀ ev ∈ (runTrial targets reference_path saveF execF (sql, db)).2.take
        (targets.length + 2),
      ev.isSnap = true ∧ ∀ b cp, ev = Event.snap b cp → b = some db) ∧
    (runTrial targets reference_path saveF execF (sql, db)).2.drop (targets.length + 2)
      = Event.exec reference_path sql (saveF 0)
        :: (enumFrom 0 targets).map (fun it => Event.exec it.2 sql (saveF (1 + it.1))) ∧
    (runTrial targets reference_path saveF execF (sql, db)).2.countP
        (Event.isExecOf reference_path) = 1 ∧
    (runTrial targets reference_path saveF execF (sql, db)).1.map Prod.fst = targets ∧
    (∀ pr ∈ (runTrial targets reference_path saveF execF (sql, db)).1,
      pr.2.reference_result = execF reference_path sql (saveF 0)) ∧
    (∀ (k : ℕ) (h2 : k < targets.length), ∃ pr : String × RunResult,
      (runTrial targets reference_path saveF execF (sql, db)).1[k]? = some pr ∧
      pr.1 = targets[k] ∧
      pr.2.db_path = saveF (1 + k) ∧
      pr.2.target_result = execF targets[k] sql (saveF (1 + k))) := by
  have hsplit : (runTrial targets reference_path saveF execF (sql, db)).2
      = (Event.snap (some db) (saveF 0)
          :: ((enumFrom 0 targets).map fun it => Event.snap (some db) (saveF (1 + it.1)))
          ++ [Event.snap (some db) (saveF (1 + targets.length))])
        ++ (Event.exec reference_path sql (saveF 0)
          :: (enumFrom 0 targets).map fun it => Event.exec it.2 sql (saveF (1 + it.1))) := by
    rw [runTrial_eq]
    simp
  have hsnaplen : (Event.snap (some db) (saveF 0)
      :: ((enumFrom 0 targets).map fun it => Event.snap (some db) (saveF (1 + it.1)))
      ++ [Event.snap (some db) (saveF (1 + targets.length))]).length
      = targets.length + 2 := by
    simp [enumFrom_length]
  refine ⟨?_, ?_, ?_, ?_, ?_, ?_, ?_⟩
  · rw [hsplit, List.take_left' hsnaplen, hsnaplen]
  · intro ev hev
    rw [hsplit, List.take_left' hsnaplen] at hev
    rcases List.mem_cons.1 hev with h1 | h1
    · subst h1
      exact ⟨rfl, fun b cp he => by
        rw [Event.snap.injEq] at he
        exact he.1.symm⟩
    · rcases List.mem_append.1 h1 with h2 | h2
      · rw [List.mem_map] at h2
        obtain ⟨it, _, heq⟩ := h2
        subst heq
        exact ⟨rfl, fun b cp he => by
          rw [Event.snap.injEq] at he
          exact he.1.symm⟩
      · rw [List.mem_singleton] at h2
        subst h2
        exact ⟨rfl, fun b cp he => by
          rw [Event.snap.injEq] at he
          exact he.1.symm⟩
  · rw [hsplit, List.drop_left' hsnaplen]
  · rw [hsplit, List.countP_append]
    have hz1 : (Event.snap (some db) (saveF 0)
        :: ((enumFrom 0 targets).map fun it => Event.snap (some db) (saveF (1 + it.1)))
        ++ [Event.snap (some db) (saveF (1 + targets.length))]).countP
          (Event.isExecOf reference_path) = 0 := by
      rw [List.countP_eq_zero]
      intro ev hev
      rcases List.mem_cons.1 hev with h1 | h1
      · subst h1; simp [Event.isExecOf]
      · rcases List.mem_append.1 h1 with h2 | h2
        · rw [List.mem_map] at h2
          obtain ⟨it, _, heq⟩ := h2
          subst heq
          simp [Event.isExecOf]
        · rw [List.mem_singleton] at h2
          subst h2
          simp [Event.isExecOf]
    have hz2 : ((enumFrom 0 targets).map fun it =>
        Event.exec it.2 sql (saveF (1 + it.1))).countP
          (Event.isExecOf reference_path) = 0 := by
      rw [List.countP_eq_zero]
      intro ev hev
      rw [List.mem_map] at hev
      obtain ⟨it, hit, heq⟩ := hev
      subst heq
      have hne : it.2 ≠ reference_path := fun he => href (he ▸ enumFrom_mem_snd hit)
      simp [Event.isExecOf, hne]
    rw [hz1, List.countP_cons, hz2]
    simp [Event.isExecOf]
  · rw [runTrial_eq]
    rw [show ((enumFrom 0 targets).map fun it =>
        (it.2,
          ({ outcome := classifyOutcome (execF reference_path sql (saveF 0))
                (execF it.2 sql (saveF (1 + it.1))),
             sql_query := sql,
             db_path := saveF (1 + it.1),
             saved_db_path := saveF (1 + targets.length),
             target_sqlite_version := versionOf it.2,
             target_result := execF it.2 sql (saveF (1 + it.1)),
             reference_sqlite_version := versionOf reference_path,
             reference_result := execF reference_path sql (saveF 0),
             bug_dir := none } : RunResult))).map Prod.fst
      = (enumFrom 0 targets).map Prod.snd by
        rw [List.map_map]
        rfl]
    exact enumFrom_map_snd 0 targets
  · intro pr hpr
    rw [runTrial_eq] at hpr
    rw [List.mem_map] at hpr
    obtain ⟨it, _, heq⟩ := hpr
    subst heq
    rfl
  · intro k h2
    have hres := congrArg Prod.fst
      (runTrial_eq targets reference_path saveF execF sql db)
    have hlen : k < (runTrial targets reference_path saveF execF (sql, db)).1.length := by
      rw [hres]
      simpa [enumFrom_length] using h2
    have hv : (runTrial targets reference_path saveF execF (sql, db)).1[k]
        = (targets[k],
            ({ outcome := classifyOutcome (execF reference_path sql (saveF 0))
                  (execF targets[k] sql (saveF (1 + k))),
               sql_query := sql,
               db_path := saveF (1 + k),
               saved_db_path := saveF (1 + targets.length),
               target_sqlite_version := versionOf targets[k],
               target_result := execF targets[k] sql (saveF (1 + k)),
               reference_sqlite_version := versionOf reference_path,
               reference_result := execF reference_path sql (saveF 0),
               bug_dir := none } : RunResult)) := by
      apply Option.some.inj
      rw [← List.getElem?_eq_getElem hlen, hres, List.getElem?_map, enumFrom_getElem?,
        List.getElem?_eq_getElem h2, Nat.zero_add]
      rfl
    exact ⟨(runTrial targets reference_path saveF execF (sql, db)).1[k],
      List.getElem?_eq_getElem hlen, by rw [hv], by rw [hv], by rw [hv]⟩

/-! ### Remaining claim theorems and witnesses -/

/-- Claim C1: the classifier realizes the five-outcome table of the spec —
target crashed (non-zero status, timeouts reported as the reserved `-1`) and
reference did not gives CRASH; reference crashed and target did not gives
REFERENCE_ERROR; neither crashed and the normalized stdouts are byte-identical
gives PASS (in particular two empty normalized outputs give PASS); neither
crashed and the normalized stdouts differ gives LOGIC_BUG; both crashed gives
INVALID_QUERY.  The six implications cover every combination of the two
statuses and the output comparison, and `classifyOutcome` is a total function
into the closed five-value `Outcome` type, so exactly one outcome results. -/
theorem classifyOutcome_table (reference_result target_result : ExecutionResult) :
    (target_result.returncode ≠ 0 ∧ reference_result.returncode = 0 →
      classifyOutcome reference_result target_result = Outcome.CRASH) ∧
    (target_result.returncode = 0 ∧ reference_result.returncode ≠ 0 →
      classifyOutcome reference_result target_result = Outcome.REFERENCE_ERROR) ∧
    (target_result.returncode = 0 ∧ reference_result.returncode = 0 ∧
        normalize_output target_result.stdout = normalize_output reference_result.stdout →
      classifyOutcome reference_result target_result = Outcome.PASS) ∧
    (target_result.returncode = 0 ∧ reference_result.returncode = 0 ∧
        normalize_output target_result.stdout ≠ normalize_output reference_result.stdout →
      classifyOutcome reference_result target_result = Outcome.LOGIC_BUG) ∧
    (target_result.returncode ≠ 0 ∧ reference_result.returncode ≠ 0 →
      classifyOutcome reference_result target_result = Outcome.INVALID_QUERY) ∧
    (reference_result.returncode = 0 ∧ target_result.returncode = 0 ∧
        normalize_output reference_result.stdout = "" ∧
        normalize_output target_result.stdout = "" →
      classifyOutcome reference_result target_result = Outcome.PASS) := by
  refine ⟨?_, ?_, ?_, ?_, ?_, ?_⟩
  · intro h
    obtain ⟨h1, h2⟩ := h
    simp [classifyOutcome, h1, h2]
  · intro h
    obtain ⟨h1, h2⟩ := h
    simp [classifyOutcome, h1, h2]
  · intro h
    obtain ⟨h1, h2, h3⟩ := h
    simp [classifyOutcome, h1, h2, h3]
  · intro h
    obtain ⟨h1, h2, h3⟩ := h
    simp [classifyOutcome, h1, h2, h3]
  · intro h
    obtain ⟨h1, h2⟩ := h
    simp [classifyOutcome, h1, h2]
  · intro h
    obtain ⟨h1, h2, h3, h4⟩ := h
    simp [classifyOutcome, h1, h2, h3, h4]

/-- Concrete checks for the C1 table: a timeout status `-1` on the target is
CRASH, the spec's Scenarios B through E, and the empty-output PASS edge. -/
theorem classifyOutcome_table_checks :
    classifyOutcome ⟨0, "", ""⟩ ⟨-1, "", ""⟩ = Outcome.CRASH ∧
    classifyOutcome ⟨1, "", ""⟩ ⟨0, "", ""⟩ = Outcome.REFERENCE_ERROR ∧
    classifyOutcome ⟨0, "", ""⟩ ⟨0, "  ", ""⟩ = Outcome.PASS ∧
    classifyOutcome ⟨0, "5", ""⟩ ⟨0, "6", ""⟩ = Outcome.LOGIC_BUG ∧
    classifyOutcome ⟨1, "", ""⟩ ⟨2, "", ""⟩ = Outcome.INVALID_QUERY :=
  ⟨(classifyOutcome_table ⟨0, "", ""⟩ ⟨-1, "", ""⟩).1 ⟨by decide, rfl⟩,
   (classifyOutcome_table ⟨1, "", ""⟩ ⟨0, "", ""⟩).2.1 ⟨rfl, by decide⟩,
   (classifyOutcome_table ⟨0, "", ""⟩ ⟨0, "  ", ""⟩).2.2.2.2.2
     ⟨rfl, rfl, by decide, by decide⟩,
   (classifyOutcome_table ⟨0, "5", ""⟩ ⟨0, "6", ""⟩).2.2.2.1 ⟨rfl, rfl, by decide⟩,
   (classifyOutcome_table ⟨1, "", ""⟩ ⟨2, "", ""⟩).2.2.2.2.1 ⟨by decide, by decide⟩⟩

/-- Claim C10: the outcome depends only on the two return codes and the two
stdout texts — two pairs of execution results that agree on those four fields
classify identically, whatever their stderr fields hold. -/
theorem classifyOutcome_ignores_stderr (r1 t1 r2 t2 : ExecutionResult)
    (hr : r1.returncode = r2.returncode) (ht : t1.returncode = t2.returncode)
    (hro : r1.stdout = r2.stdout) (hto : t1.stdout = t2.stdout) :
    classifyOutcome r1 t1 = classifyOutcome r2 t2 := by
  obtain ⟨a1, b1, c1⟩ := r1
  obtain ⟨d1, e1, f1⟩ := t1
  obtain ⟨a2, b2, c2⟩ := r2
  obtain ⟨d2, e2, f2⟩ := t2
  simp only at hr ht hro hto
  subst hr
  subst ht
  subst hro
  subst hto
  rfl

/-- Concrete check for C10: same statuses and stdouts, four different stderr
texts, same outcome. -/
theorem classifyOutcome_ignores_stderr_checks :
    classifyOutcome ⟨0, "x", "errA"⟩ ⟨0, "x", "errB"⟩
      = classifyOutcome ⟨0, "x", "errC"⟩ ⟨0, "x", "errD"⟩ :=
  classifyOutcome_ignores_stderr ⟨0, "x", "errA"⟩ ⟨0, "x", "errB"⟩
    ⟨0, "x", "errC"⟩ ⟨0, "x", "errD"⟩ rfl rfl rfl rfl

/-- Claim C2: `_run_sqlite` returns a result dictionary on every subprocess
event — it never lets an exception reach the caller.  A timeout is converted
to the reserved non-zero status `-1` with whatever captured output the
exception carried preserved; any launch failure (missing binary, permission
error, invalid path — all caught by the bare `except Exception`) is converted
to status `-1` with the failure description in the error stream. -/
theorem run_sqlite_never_raises (ev : SubprocEvent) :
    (∃ rc, (run_sqlite ev).returncode = some rc) ∧
    (∀ out err, ev = SubprocEvent.timeoutExpired out err →
      (run_sqlite ev).returncode = some (-1) ∧ (-1 : Int) ≠ 0 ∧
      (run_sqlite ev).stdout = out ∧ (run_sqlite ev).stderr = err) ∧
    (∀ msg, ev = SubprocEvent.launchFailure msg →
      (run_sqlite ev).returncode = some (-1) ∧ (-1 : Int) ≠ 0 ∧
      (run_sqlite ev).stdout = none ∧ (run_sqlite ev).stderr = some msg) := by
  refine ⟨?_, ?_, ?_⟩
  · cases ev with
    | completed rc out err => exact ⟨rc, rfl⟩
    | timeoutExpired out err => exact ⟨-1, rfl⟩
    | launchFailure msg => exact ⟨-1, rfl⟩
  · intro out err he
    subst he
    exact ⟨rfl, by decide, rfl, rfl⟩
  · intro msg he
    subst he
    exact ⟨rfl, by decide, rfl, rfl⟩

/-- Concrete checks for C2: a timeout with captured output, and a launch
failure on a missing data path. -/
theorem run_sqlite_never_raises_checks :
    (run_sqlite (SubprocEvent.timeoutExpired (some "truncated out") none)).returncode
      = some (-1) ∧
    (run_sqlite (SubprocEvent.timeoutExpired (some "truncated out") none)).stdout
      = some "truncated out" ∧
    (run_sqlite (SubprocEvent.launchFailure "No such file or directory")).stderr
      = some "No such file or directory" :=
  ⟨((run_sqlite_never_raises _).2.1 _ _ rfl).1,
   ((run_sqlite_never_raises _).2.1 _ _ rfl).2.2.1,
   ((run_sqlite_never_raises _).2.2 _ rfl).2.2.2⟩

/-- Claim C5 (counterexample to the original claim): the field `"1.5e400"`
parses as a float and contains a decimal point, yet the program does not
re-render it with ten fractional digits — CPython's `float('1.5e400')`
overflows to infinity and `.10f` prints `inf`, so the whole output
normalizes to `"inf"`, which contains no `'.'` at all. -/
theorem normalize_output_overflow_to_inf :
    normalize_output "1.5e400" = "inf" ∧
    parsePyFloat (pyStrip ("1.5e400").data) = some (false, 15, 1, 400) ∧
    '.' ∈ pyStrip ("1.5e400").data ∧
    '.' ∉ normalizeField ("1.5e400").data := by
  refine ⟨by decide, by decide, by decide, by decide⟩

/-- Claim C5 (amended): the normalizer treats each line field-wise — a field
whose stripped text has no decimal point (integer-looking or non-numeric) is
kept as its stripped text; a field that parses as a float and contains a
point is re-rendered with exactly ten fractional digits when its rounded
magnitude is below the double-overflow threshold, and is rendered as
`inf`/`-inf` when it overflows; blank lines are dropped and fields/lines are
re-joined with the original delimiters, as witnessed on the spec's
Scenario A strings and a mixed line. -/
theorem normalize_output_field_rules :
    (∀ f : List Char, '.' ∉ pyStrip f → normalizeField f = pyStrip f) ∧
    (∀ (f : List Char) (neg : Bool) (num scale : ℕ) (e : ℤ),
      parsePyFloat (pyStrip f) = some (neg, num, scale, e) → '.' ∈ pyStrip f →
      scaled10 num scale e < overflow10 →
      ∃ a b, normalizeField f = a ++ '.' :: b ∧ b.length = 10 ∧
        ∀ c ∈ b, isDigitC c = true) ∧
    (∀ (f : List Char) (neg : Bool) (num scale : ℕ) (e : ℤ),
      parsePyFloat (pyStrip f) = some (neg, num, scale, e) → '.' ∈ pyStrip f →
      overflow10 ≤ scaled10 num scale e →
      normalizeField f = (if neg then ['-'] else []) ++ ['i', 'n', 'f']) ∧
    normalize_output "1|2.00000000001" = "1|2.0000000000" ∧
    normalize_output "1|2.0000000000" = "1|2.0000000000" ∧
    normalize_output " 1 | a b |2.5 " = "1|a b|2.5000000000" ∧
    normalize_output "1\n\n  \n2" = "1\n2" := by
  refine ⟨?_, ?_, ?_, by decide, by decide, by decide, by decide⟩
  · intro f hdot
    have hc : (pyStrip f).contains '.' = false := by
      rcases h : (pyStrip f).contains '.' with _ | _
      · rfl
      · exact absurd ((contains_iff _ _).1 h) hdot
    rcases hpf : parsePyFloat (pyStrip f) with _ | ⟨neg, num, scale, e⟩
    · exact normalizeField_none hpf
    · exact normalizeField_some_nodot hpf hc
  · intro f neg num scale e hpf hdot hov
    rw [normalizeField_some_dot hpf ((contains_iff _ _).2 hdot)]
    obtain ⟨ds, heq, _, _⟩ := renderFix10_structure neg num scale e hov
    refine ⟨(if neg then ['-'] else []) ++ ds,
      fixedDigits 10 (scaled10 num scale e % 10 ^ 10), ?_,
      fixedDigits_length 10 _, fixedDigits_digits 10 _⟩
    rw [heq, List.append_assoc]
  · intro f neg num scale e hpf hdot hov
    rw [normalizeField_some_dot hpf ((contains_iff _ _).2 hdot)]
    exact renderFix10_inf hov

/-- Concrete checks for C5's universally quantified parts: an integer field
is kept verbatim (after stripping), a float field gets exactly ten
fractional digits, and an overflowing float field is rendered as `inf`. -/
theorem normalize_output_field_rules_checks :
    normalizeField " 42 ".data = "42".data ∧
    (∃ a b, normalizeField "2.5".data = a ++ '.' :: b ∧ b.length = 10 ∧
      ∀ c ∈ b, isDigitC c = true) ∧
    normalizeField ("1.5e400").data = ['i', 'n', 'f'] :=
  ⟨by rw [normalize_output_field_rules.1 " 42 ".data (by decide)]; decide,
   normalize_output_field_rules.2.1 "2.5".data false 25 1 0 (by decide) (by decide)
     (by decide),
   by
    rw [normalize_output_field_rules.2.2.1 ("1.5e400").data false 15 1 400 (by decide)
      (by decide) (by decide)]
    rfl⟩

/-- Claim C7: the snapshotter returns none for a missing, empty, or
`":memory:"` path and for a file that does not exist; otherwise it copies the
base file to `temp_dir/{random_id}_{basename}` (a name derived from the
random identifier, independent of any trial counter), touching no other path
of the file system — in particular never the source file; and a copy failure
escapes as a hard error rather than being swallowed into a none result. -/
theorem save_database_state_spec (fs : String → Option String) (copyOk : Bool)
    (temp_dir random_id : String) (p : String) :
    save_database_state fs copyOk temp_dir random_id none = Except.ok (none, fs) ∧
    save_database_state fs copyOk temp_dir random_id (some ":memory:")
      = Except.ok (none, fs) ∧
    save_database_state fs copyOk temp_dir random_id (some "")
      = Except.ok (none, fs) ∧
    (fs p = none →
      save_database_state fs copyOk temp_dir random_id (some p)
        = Except.ok (none, fs)) ∧
    (p ≠ "" → p ≠ ":memory:" → (fs p).isSome = true → copyOk = true →
      ∃ fs', save_database_state fs copyOk temp_dir random_id (some p)
          = Except.ok (some (temp_dir ++ "/" ++ random_id ++ "_" ++ baseNameOf p), fs') ∧
        fs' (temp_dir ++ "/" ++ random_id ++ "_" ++ baseNameOf p) = fs p ∧
        ∀ q, q ≠ temp_dir ++ "/" ++ random_id ++ "_" ++ baseNameOf p → fs' q = fs q) ∧
    (p ≠ "" → p ≠ ":memory:" → (fs p).isSome = true → copyOk = false →
      save_database_state fs copyOk temp_dir random_id (some p)
        = Except.error "copy failed") := by
  refine ⟨rfl, ?_, ?_, ?_, ?_, ?_⟩
  · simp [save_database_state]
  · simp [save_database_state]
  · intro h
    simp [save_database_state, h]
  · intro h1 h2 h3 h4
    subst h4
    refine ⟨fun q => if q = temp_dir ++ "/" ++ random_id ++ "_" ++ baseNameOf p
        then fs p else fs q, ?_, ?_, ?_⟩
    · simp only [save_database_state]
      rw [if_pos ⟨h1, h2, h3⟩]
      rfl
    · simp
    · intro q hq
      simp [hq]
  · intro h1 h2 h3 h4
    subst h4
    simp only [save_database_state]
    rw [if_pos ⟨h1, h2, h3⟩]
    rfl

/-- Concrete checks for C7: an existing base file is copied under the
generated name and the source is untouched; a failing copy is a hard error;
a missing file gives none. -/
theorem save_database_state_spec_checks :
    (∃ fs', save_database_state
        (fun q => if q = "data/base.db" then some "CONTENT" else none) true
        "scratch" "ab12cd34" (some "data/base.db")
      = Except.ok (some "scratch/ab12cd34_base.db", fs') ∧
      fs' "scratch/ab12cd34_base.db"
        = (fun q => if q = "data/base.db" then some "CONTENT" else none) "data/base.db" ∧
      ∀ q, q ≠ "scratch/ab12cd34_base.db" →
        fs' q = (fun q => if q = "data/base.db" then some "CONTENT" else none) q) ∧
    save_database_state
        (fun q => if q = "data/base.db" then some "CONTENT" else none) false
        "scratch" "ab12cd34" (some "data/base.db")
      = Except.error "copy failed" ∧
    save_database_state
        (fun q => if q = "data/base.db" then some "CONTENT" else none) true
        "scratch" "ab12cd34" (some "data/missing.db")
      = Except.ok (none, fun q => if q = "data/base.db" then some "CONTENT" else none) := by
  refine ⟨?_, ?_, ?_⟩
  · have h := (save_database_state_spec
        (fun q => if q = "data/base.db" then some "CONTENT" else none) true
        "scratch" "ab12cd34" "data/base.db").2.2.2.2.1
      (by decide) (by decide) (by decide) rfl
    rw [show "scratch" ++ "/" ++ "ab12cd34" ++ "_" ++ baseNameOf "data/base.db"
        = "scratch/ab12cd34_base.db" by decide] at h
    exact h
  · have h := (save_database_state_spec
        (fun q => if q = "data/base.db" then some "CONTENT" else none) false
        "scratch" "ab12cd34" "data/base.db").2.2.2.2.2
      (by decide) (by decide) (by decide) rfl
    exact h
  · exact (save_database_state_spec
        (fun q => if q = "data/base.db" then some "CONTENT" else none) true
        "scratch" "ab12cd34" "data/missing.db").2.2.2.1 (by decide)

/-- Concrete check for C3's amended claim: a CRASH result is archived with
the returned location attached, while the archive-call trace for a pure
INVALID_QUERY batch stays empty. -/
theorem record_results_archives_checks :
    (storedEntry (fun _ => "archive/bug-7")
        ("sqlite3-t", ⟨Outcome.CRASH, "q", none, none, "v", ⟨-1, "", ""⟩, "v",
          ⟨0, "", ""⟩, none⟩)).2.bug_dir = some "archive/bug-7" ∧
    (record_results (fun _ => "archive/bug-7") ⟨0, fun _ _ => 0, [], []⟩
        [("sqlite3-t", ⟨Outcome.CRASH, "q", none, none, "v", ⟨-1, "", ""⟩, "v",
          ⟨0, "", ""⟩, none⟩)]).archive_calls
      = [("sqlite3-t", ⟨Outcome.CRASH, "q", none, none, "v", ⟨-1, "", ""⟩, "v",
          ⟨0, "", ""⟩, none⟩, "archive/bug-7")] :=
  ⟨(record_results_archives_crash_logic_reference (fun _ => "archive/bug-7")
      ⟨0, fun _ _ => 0, [], []⟩ []).2.1
    ("sqlite3-t", ⟨Outcome.CRASH, "q", none, none, "v", ⟨-1, "", ""⟩, "v",
      ⟨0, "", ""⟩, none⟩) (by decide),
   by
    rw [(record_results_archives_crash_logic_reference (fun _ => "archive/bug-7")
        ⟨0, fun _ _ => 0, [], []⟩
        [("sqlite3-t", ⟨Outcome.CRASH, "q", none, none, "v", ⟨-1, "", ""⟩, "v",
          ⟨0, "", ""⟩, none⟩)]).1]
    rfl⟩

/-- Concrete check for C6: with two distinct targets and a distinct
reference, the reference is executed exactly once per trial. -/
theorem runTrial_spec_checks :
    ((runTrial ["sqlite3-a", "sqlite3-b"] "sqlite3-ref" (fun _ => none)
        (fun _ _ _ => ⟨0, "", ""⟩) ("SELECT 1", ":memory:")).2).countP
      (Event.isExecOf "sqlite3-ref") = 1 :=
  (runTrial_spec ["sqlite3-a", "sqlite3-b"] "sqlite3-ref" (fun _ => none)
    (fun _ _ _ => ⟨0, "", ""⟩) "SELECT 1" ":memory:" (by decide)
    (by decide)).2.2.2.1

end FuzzQLite
